import Mathlib

/-!
# Verification of `mlx-mkbfb.py` (BlueField boot-stream builder/dumper)

A shallow embedding of the boot-stream tool: the 24-byte header codec
(`ImageHdr.get_bits` / `ImageHdr.set_from_file`), the per-image integrity
envelope (`Image.set_from_stream` / `Image.set_from_file`), and the
stream-assembly algorithm (`make_stream`) together with the dumper
(`dump_stream`).  Streams are lists of byte values (`List Nat`, each < 256
in practice); Python's arbitrary-precision integers are `Nat` with the
masks written where the source writes them.
-/

/-- `MAX_VER` from the source: maximum allowed image version number. -/
def MAX_VER : Nat := 2

/-- `MAJOR_VER` from the source. -/
def MAJOR_VER : Nat := 1

/-- `MINOR_VER` from the source. -/
def MINOR_VER : Nat := 2

/-- `num_padding_bytes(length) = ((length + 7) & ~7) - length`.
For a natural number `x`, Python's `x & ~7` equals `x - x % 8`. -/
def num_padding_bytes (length : Nat) : Nat :=
  ((length + 7) - (length + 7) % 8) - length

/-- One shift-and-conditionally-xor step of the bitwise CRC-32 loop. -/
def crc32_step (c : Nat) : Nat :=
  if c % 2 = 1 then (c >>> 1) ^^^ 0xEDB88320 else c >>> 1

/-- Fold one byte into a CRC-32 accumulator (eight `crc32_step`s). -/
def crc32_byte (c b : Nat) : Nat :=
  crc32_step^[8] (c ^^^ b)

/-- Model of `binascii.crc32(data, init)` (zlib CRC-32, polynomial
0xEDB88320, with the usual pre/post complement). Only the facts that it is
a function of `(data, init)` and is below `2^32` matter to the claims. -/
def crc32 (data : List Nat) (init : Nat) : Nat :=
  (data.foldl crc32_byte (init ^^^ 0xFFFFFFFF)) ^^^ 0xFFFFFFFF

/-- The mutable state of a Python `ImageHdr` object. -/
structure ImageHdr where
  major : Nat := MAJOR_VER
  minor : Nat := MINOR_VER
  image_id : Nat := 0
  next_img_ver : Nat := 0
  cur_img_ver : Nat := 0
  image_len : Nat := 0
  image_crc : Nat := 0
  following_images : Nat := 0
deriving DecidableEq, Repr

namespace ImageHdr

/-- `ImageHdr.magic = 0x13026642`. -/
def magic : Nat := 0x13026642

/-- `ImageHdr.default_major`. -/
def default_major : Nat := MAJOR_VER

/-- `ImageHdr.default_minor`. -/
def default_minor : Nat := MINOR_VER

/-- `ImageHdr.length = 24` (header length in bytes). -/
def length : Nat := 24

end ImageHdr

/-- The eight bytes of one little-endian 64-bit word, as produced by
`struct.pack("<Q", w)`. -/
def le64 (w : Nat) : List Nat :=
  [w &&& 0xFF, (w >>> 8) &&& 0xFF, (w >>> 16) &&& 0xFF, (w >>> 24) &&& 0xFF,
   (w >>> 32) &&& 0xFF, (w >>> 40) &&& 0xFF, (w >>> 48) &&& 0xFF,
   (w >>> 56) &&& 0xFF]

/-- Recombine a little-endian byte list into a number, as
`struct.unpack("<Q", bs)` does for an 8-byte `bs`. -/
def leList (bs : List Nat) : Nat :=
  bs.foldr (fun b acc => b + 256 * acc) 0

/-- `ImageHdr.get_bits`: pack the header fields into three little-endian
64-bit words, exactly with the shifts and masks of the source. -/
def ImageHdr.get_bits (h : ImageHdr) : List Nat :=
  let w0 := ((ImageHdr.magic &&& 0xFFFFFFFF) <<< 0) |||
            ((h.major &&& 0xF) <<< 32) |||
            ((h.minor &&& 0xF) <<< 36) |||
            ((h.next_img_ver &&& 0xF) <<< 44) |||
            ((h.cur_img_ver &&& 0xF) <<< 48) |||
            (((ImageHdr.length / 8) &&& 0xF) <<< 52) |||
            ((h.image_id &&& 0xFF) <<< 56)
  let w1 := ((h.image_len &&& 0xFFFFFFFF) <<< 0) |||
            ((h.image_crc &&& 0xFFFFFFFF) <<< 32)
  let w2 := h.following_images
  le64 w0 ++ le64 w1 ++ le64 w2

/-- The two exception classes `NoHdr` and `BadHdr` of the header parser. -/
inductive HdrFail where
  | NoHdr : HdrFail
  | BadHdr : String → HdrFail
deriving DecidableEq, Repr

/-- Field extraction and validation of `ImageHdr.__set_from_file`, acting
on the three already-unpacked little-endian words `(w0, w1, w2)` of
`struct.unpack("<QQQ", instr)`. -/
def ImageHdr.decode_words (w0 w1 w2 : Nat) : Except HdrFail ImageHdr :=
  let magic := w0 &&& 0xFFFFFFFF
  let major := (w0 >>> 32) &&& 0xF
  let minor := (w0 >>> 36) &&& 0xF
  let length := (w0 >>> 52) &&& 0xF
  let image_id := (w0 >>> 56) &&& 0xFF
  let image_len := w1 &&& 0xFFFFFFFF
  let image_crc := (w1 >>> 32) &&& 0xFFFFFFFF
  let following_images := w2
  -- "The next/cur image version fields were only added in minor 2"
  let vers := if minor ≤ 2 then ((w0 >>> 44) &&& 0xF, (w0 >>> 48) &&& 0xF)
              else (0, 0)
  if magic ≠ ImageHdr.magic then
    .error (.BadHdr "Bad ImageHdr magic number")
  else if major ≠ ImageHdr.default_major then
    .error (.BadHdr "Bad ImageHdr major version")
  else if minor > ImageHdr.default_minor then
    .error (.BadHdr "Bad ImageHdr minor version")
  else if length ≠ ImageHdr.length / 8 then
    .error (.BadHdr "Bad ImageHdr header length")
  else
    .ok ⟨major, minor, image_id, vers.1, vers.2, image_len, image_crc,
         following_images⟩

/-- `ImageHdr.__set_from_file`: parse a 24-byte header off the front of a
stream.  Returns the header and the unconsumed remainder of the stream.
The source stores into `self` before validating; the partially-updated
object is unobservable on the exception paths, so the pure model builds
the header only on success. -/
def ImageHdr.set_from_file (infile : List Nat) :
    Except HdrFail (ImageHdr × List Nat) :=
  let instr := infile.take ImageHdr.length
  if instr = [] then .error .NoHdr
  else if instr.length < ImageHdr.length then
    .error (.BadHdr "ImageHdr too short")
  else
    match ImageHdr.decode_words (leList (instr.take 8))
        (leList ((instr.drop 8).take 8)) (leList ((instr.drop 16).take 8)) with
    | .error e => .error e
    | .ok h => .ok (h, infile.drop ImageHdr.length)

/-! ## Bit-manipulation toolkit -/

theorem lor_two_mul_add (m c r : Nat) (hr : r < 2) :
    (2 * m + r) ||| (2 * c) = 2 * (m ||| c) + r := by
  have hr' : r = 0 ∨ r = 1 := by omega
  rcases hr' with h | h <;> subst h
  · have h1 : 2 * m + 0 = Nat.bit false m := by simp [Nat.bit_val]
    have h2 : 2 * c = Nat.bit false c := by simp [Nat.bit_val]
    rw [h1, h2, Nat.lor_bit]
    simp [Nat.bit_val]
  · have h1 : 2 * m + 1 = Nat.bit true m := by simp [Nat.bit_val]
    have h2 : 2 * c = Nat.bit false c := by simp [Nat.bit_val]
    rw [h1, h2, Nat.lor_bit]
    simp [Nat.bit_val]

/-- Disjoint bitwise-or is addition: when `lo` fits below bit `n`,
`lo ||| (b <<< n) = lo + b * 2 ^ n`. -/
theorem lor_shift_eq_add {lo : Nat} (b n : Nat) (h : lo < 2 ^ n) :
    lo ||| (b <<< n) = lo + b * 2 ^ n := by
  induction n generalizing lo b with
  | zero =>
    interval_cases lo
    simp [Nat.shiftLeft_eq]
  | succ n ih =>
    have hdecomp : lo = 2 * (lo / 2) + lo % 2 := by omega
    have hlt : lo / 2 < 2 ^ n := by
      have : (2 : Nat) ^ (n + 1) = 2 * 2 ^ n := by ring
      omega
    have hshift : b <<< (n + 1) = 2 * (b <<< n) := by
      simp [Nat.shiftLeft_eq, pow_succ]
      ring
    calc lo ||| (b <<< (n + 1))
        = (2 * (lo / 2) + lo % 2) ||| (2 * (b <<< n)) := by
          rw [← hdecomp, ← hshift]
      _ = 2 * ((lo / 2) ||| (b <<< n)) + lo % 2 :=
          lor_two_mul_add _ _ _ (Nat.mod_lt _ (by omega))
      _ = 2 * ((lo / 2) + b * 2 ^ n) + lo % 2 := by rw [ih _ hlt]
      _ = lo + b * 2 ^ (n + 1) := by
          have : (2 : Nat) ^ (n + 1) = 2 * 2 ^ n := by ring
          omega

theorem and_15_eq_mod (n : Nat) : n &&& 15 = n % 16 := by
  have := Nat.and_pow_two_sub_one_eq_mod n 4
  norm_num at this
  exact this

theorem and_255_eq_mod (n : Nat) : n &&& 255 = n % 256 := by
  have := Nat.and_pow_two_sub_one_eq_mod n 8
  norm_num at this
  exact this

theorem and_mask32_eq_mod (n : Nat) : n &&& 4294967295 = n % 4294967296 := by
  have := Nat.and_pow_two_sub_one_eq_mod n 32
  norm_num at this
  exact this

theorem shiftRight_eq_div (n k : Nat) : n >>> k = n / 2 ^ k :=
  Nat.shiftRight_eq_div_pow n k

/-- Unpacking the eight little-endian bytes of `le64 w` recovers
`w % 2 ^ 64`. -/
theorem leList_le64 (w : Nat) : leList (le64 w) = w % 2 ^ 64 := by
  simp only [le64, leList, List.foldr, and_255_eq_mod, shiftRight_eq_div]
  norm_num
  omega

theorem and_mask32_self {n : Nat} (h : n < 2 ^ 32) : n &&& 4294967295 = n := by
  rw [and_mask32_eq_mod]
  omega

theorem and_15_self {n : Nat} (h : n < 16) : n &&& 15 = n := by
  rw [and_15_eq_mod]
  omega

theorem and_255_self {n : Nat} (h : n < 256) : n &&& 255 = n := by
  rw [and_255_eq_mod]
  omega

/-- The packed word `w0` of `get_bits`, as a plain sum, for in-range
fields with the accepted major version. -/
theorem get_bits_w0_eq (m nv cv id : Nat) (hm : m < 16) (hnv : nv < 16)
    (hcv : cv < 16) (hid : id < 256) :
    ((ImageHdr.magic &&& 0xFFFFFFFF) <<< 0) ||| ((1 &&& 0xF) <<< 32) |||
      ((m &&& 0xF) <<< 36) ||| ((nv &&& 0xF) <<< 44) ||| ((cv &&& 0xF) <<< 48) |||
      (((ImageHdr.length / 8) &&& 0xF) <<< 52) ||| ((id &&& 0xFF) <<< 56) =
    0x13026642 + 1 * 2 ^ 32 + m * 2 ^ 36 + nv * 2 ^ 44 + cv * 2 ^ 48 +
      3 * 2 ^ 52 + id * 2 ^ 56 := by
  have hmagic : (ImageHdr.magic &&& 0xFFFFFFFF) <<< 0 = 0x13026642 := by decide
  have h1 : (1 : Nat) &&& 0xF = 1 := by decide
  have h3 : ((ImageHdr.length / 8) &&& 0xF) = 3 := by decide
  rw [hmagic, h1, h3, and_15_self hm, and_15_self hnv, and_15_self hcv,
    and_255_self hid]
  rw [lor_shift_eq_add 1 32 (by norm_num : (0x13026642 : Nat) < 2 ^ 32)]
  rw [lor_shift_eq_add m 36
    (by omega : (0x13026642 + 1 * 2 ^ 32 : Nat) < 2 ^ 36)]
  rw [lor_shift_eq_add nv 44
    (by omega : (0x13026642 + 1 * 2 ^ 32 + m * 2 ^ 36 : Nat) < 2 ^ 44)]
  rw [lor_shift_eq_add cv 48 (by omega :
    (0x13026642 + 1 * 2 ^ 32 + m * 2 ^ 36 + nv * 2 ^ 44 : Nat) < 2 ^ 48)]
  rw [lor_shift_eq_add 3 52 (by omega :
    (0x13026642 + 1 * 2 ^ 32 + m * 2 ^ 36 + nv * 2 ^ 44 + cv * 2 ^ 48 : Nat) <
      2 ^ 52)]
  rw [lor_shift_eq_add id 56 (by omega :
    (0x13026642 + 1 * 2 ^ 32 + m * 2 ^ 36 + nv * 2 ^ 44 + cv * 2 ^ 48 +
      3 * 2 ^ 52 : Nat) < 2 ^ 56)]

/-- The packed word `w1` of `get_bits`, as a plain sum. -/
theorem get_bits_w1_eq (len crc : Nat) (hlen : len < 2 ^ 32)
    (hcrc : crc < 2 ^ 32) :
    ((len &&& 0xFFFFFFFF) <<< 0) ||| ((crc &&& 0xFFFFFFFF) <<< 32) =
    len + crc * 2 ^ 32 := by
  rw [Nat.shiftLeft_zero, and_mask32_self hlen, and_mask32_self hcrc]
  exact lor_shift_eq_add crc 32 hlen

/-- Decoding the packed sum-form words succeeds and recovers every field,
when the fields are in range and the header is acceptable
(`major = 1`, `minor ≤ 2`). -/
theorem decode_words_roundtrip (m nv cv id len crc fol : Nat)
    (hm : m ≤ 2) (hnv : nv < 16) (hcv : cv < 16) (hid : id < 256)
    (hlen : len < 2 ^ 32) (hcrc : crc < 2 ^ 32) :
    ImageHdr.decode_words
      (0x13026642 + 1 * 2 ^ 32 + m * 2 ^ 36 + nv * 2 ^ 44 + cv * 2 ^ 48 +
        3 * 2 ^ 52 + id * 2 ^ 56)
      (len + crc * 2 ^ 32) fol =
    .ok ⟨1, m, id, nv, cv, len, crc, fol⟩ := by
  have e_magic : (0x13026642 + 1 * 2 ^ 32 + m * 2 ^ 36 + nv * 2 ^ 44 +
      cv * 2 ^ 48 + 3 * 2 ^ 52 + id * 2 ^ 56) &&& 0xFFFFFFFF = 0x13026642 := by
    rw [and_mask32_eq_mod]; omega
  have e_major : ((0x13026642 + 1 * 2 ^ 32 + m * 2 ^ 36 + nv * 2 ^ 44 +
      cv * 2 ^ 48 + 3 * 2 ^ 52 + id * 2 ^ 56) >>> 32) &&& 0xF = 1 := by
    rw [shiftRight_eq_div, and_15_eq_mod]; omega
  have e_minor : ((0x13026642 + 1 * 2 ^ 32 + m * 2 ^ 36 + nv * 2 ^ 44 +
      cv * 2 ^ 48 + 3 * 2 ^ 52 + id * 2 ^ 56) >>> 36) &&& 0xF = m := by
    rw [shiftRight_eq_div, and_15_eq_mod]; omega
  have e_len : ((0x13026642 + 1 * 2 ^ 32 + m * 2 ^ 36 + nv * 2 ^ 44 +
      cv * 2 ^ 48 + 3 * 2 ^ 52 + id * 2 ^ 56) >>> 52) &&& 0xF = 3 := by
    rw [shiftRight_eq_div, and_15_eq_mod]; omega
  have e_id : ((0x13026642 + 1 * 2 ^ 32 + m * 2 ^ 36 + nv * 2 ^ 44 +
      cv * 2 ^ 48 + 3 * 2 ^ 52 + id * 2 ^ 56) >>> 56) &&& 0xFF = id := by
    rw [shiftRight_eq_div, and_255_eq_mod]; omega
  have e_nv : ((0x13026642 + 1 * 2 ^ 32 + m * 2 ^ 36 + nv * 2 ^ 44 +
      cv * 2 ^ 48 + 3 * 2 ^ 52 + id * 2 ^ 56) >>> 44) &&& 0xF = nv := by
    rw [shiftRight_eq_div, and_15_eq_mod]; omega
  have e_cv : ((0x13026642 + 1 * 2 ^ 32 + m * 2 ^ 36 + nv * 2 ^ 44 +
      cv * 2 ^ 48 + 3 * 2 ^ 52 + id * 2 ^ 56) >>> 48) &&& 0xF = cv := by
    rw [shiftRight_eq_div, and_15_eq_mod]; omega
  have e_ilen : (len + crc * 2 ^ 32) &&& 0xFFFFFFFF = len := by
    rw [and_mask32_eq_mod]; omega
  have e_icrc : ((len + crc * 2 ^ 32) >>> 32) &&& 0xFFFFFFFF = crc := by
    rw [shiftRight_eq_div, and_mask32_eq_mod]; omega
  unfold ImageHdr.decode_words
  simp only [e_magic, e_major, e_minor, e_len, e_id, e_nv, e_cv, e_ilen,
    e_icrc]
  norm_num [ImageHdr.magic, ImageHdr.default_major, ImageHdr.default_minor,
    ImageHdr.length, MAJOR_VER, MINOR_VER, hm]

/-- C1. Header codec round-trip: for every header whose fields fit their
declared bit widths and that the decoder accepts (`major = 1`,
`minor ≤ 2`), decoding the 24 bytes produced by `ImageHdr.get_bits`
yields the header back in every field (and consumes the whole input). -/
theorem C1_header_roundtrip (h : ImageHdr)
    (hmaj : h.major = 1) (hmin : h.minor ≤ 2)
    (hnv : h.next_img_ver < 16) (hcv : h.cur_img_ver < 16)
    (hid : h.image_id < 256) (hlen : h.image_len < 2 ^ 32)
    (hcrc : h.image_crc < 2 ^ 32) (hfol : h.following_images < 2 ^ 64) :
    ImageHdr.set_from_file h.get_bits = .ok (h, []) := by
  obtain ⟨M, m, id, nv, cv, len, crc, fol⟩ := h
  simp only [ImageHdr.major] at hmaj
  simp only [ImageHdr.minor] at hmin
  simp only [ImageHdr.next_img_ver] at hnv
  simp only [ImageHdr.cur_img_ver] at hcv
  simp only [ImageHdr.image_id] at hid
  simp only [ImageHdr.image_len] at hlen
  simp only [ImageHdr.image_crc] at hcrc
  simp only [ImageHdr.following_images] at hfol
  subst hmaj
  rw [ImageHdr.get_bits]
  simp only
  rw [get_bits_w0_eq m nv cv id (by omega) hnv hcv hid,
    get_bits_w1_eq len crc hlen hcrc]
  set W0 : Nat := 0x13026642 + 1 * 2 ^ 32 + m * 2 ^ 36 + nv * 2 ^ 44 +
    cv * 2 ^ 48 + 3 * 2 ^ 52 + id * 2 ^ 56 with hW0
  set W1 : Nat := len + crc * 2 ^ 32 with hW1
  have hlen0 : (le64 W0).length = 8 := rfl
  have hlen1 : (le64 W1).length = 8 := rfl
  have hlen2 : (le64 fol).length = 8 := rfl
  have hlen_all : (le64 W0 ++ le64 W1 ++ le64 fol).length = 24 := by
    simp [hlen0, hlen1, hlen2]
  rw [ImageHdr.set_from_file]
  have htake : (le64 W0 ++ le64 W1 ++ le64 fol).take ImageHdr.length =
      le64 W0 ++ le64 W1 ++ le64 fol := by
    show _ = le64 W0 ++ le64 W1 ++ le64 fol
    rw [show ImageHdr.length = 24 from rfl, ← hlen_all, List.take_length]
  simp only [htake]
  rw [if_neg (by simp [← List.length_pos_iff_ne_nil] at hlen_all ⊢; omega)]
  rw [if_neg (by rw [hlen_all]; simp [ImageHdr.length])]
  have ht8 : (le64 W0 ++ le64 W1 ++ le64 fol).take 8 = le64 W0 := by
    rw [List.append_assoc, ← hlen0, List.take_left]
  have hd8 : (le64 W0 ++ le64 W1 ++ le64 fol).drop 8 = le64 W1 ++ le64 fol := by
    rw [List.append_assoc, ← hlen0, List.drop_left]
  have hd16 : (le64 W0 ++ le64 W1 ++ le64 fol).drop 16 = le64 fol := by
    rw [show (16 : Nat) = 8 + 8 from rfl, ← List.drop_drop, hd8, ← hlen1,
      List.drop_left]
  rw [ht8, hd8, hd16]
  rw [← hlen1, List.take_left, hlen1]
  rw [show (le64 fol).take 8 = le64 fol from by rw [← hlen2, List.take_length]]
  rw [leList_le64, leList_le64, leList_le64]
  have hW0lt : W0 < 2 ^ 64 := by rw [hW0]; omega
  have hW1lt : W1 < 2 ^ 64 := by rw [hW1]; omega
  rw [Nat.mod_eq_of_lt hW0lt, Nat.mod_eq_of_lt hW1lt, Nat.mod_eq_of_lt hfol]
  rw [hW0, hW1, decode_words_roundtrip m nv cv id len crc fol hmin hnv hcv
    hid hlen hcrc]
  rw [show ImageHdr.length = 24 from rfl, ← hlen_all, List.drop_length]

/-! ## Images: header plus payload -/

/-- Failures of `Image.__set_from_stream`: a propagated header failure, or
one of the two generic `Exception`s it raises itself.  The CRC mismatch
message names the image ID and both the stored and the computed CRC; the
constructor carries exactly those values. -/
inductive StreamFail where
  | hdr : HdrFail → StreamFail
  | tooShort (image_id : Nat) : StreamFail
  | crcMismatch (image_id stored computed : Nat) : StreamFail
deriving DecidableEq, Repr

/-- A BlueField boot stream image: one header plus its payload bytes. -/
structure Image where
  header : ImageHdr
  bits : List Nat
deriving DecidableEq, Repr

/-- `Image.get_padding`: the zero padding that follows the payload. -/
def Image.get_padding (img : Image) : List Nat :=
  List.replicate (num_padding_bytes img.header.image_len) 0

/-- `Image.write`: header bytes, then payload, then padding. -/
def Image.write (img : Image) : List Nat :=
  img.header.get_bits ++ img.bits ++ img.get_padding

/-- `Image.__set_from_stream`: parse one header, read `image_len` payload
bytes (failing if fewer are available), read the padding, and check the
CRC-32 of payload-then-padding against the stored value.  Returns the
image and the unconsumed remainder of the stream. -/
def Image.set_from_stream (instream : List Nat) :
    Except StreamFail (Image × List Nat) :=
  match ImageHdr.set_from_file instream with
  | .error e => .error (.hdr e)
  | .ok (header, rest) =>
    let length := header.image_len
    let bits := rest.take length
    if bits.length ≠ length then .error (.tooShort header.image_id)
    else
      let padding := (rest.drop length).take (num_padding_bytes length)
      let crc := crc32 padding (crc32 bits 0) &&& 0xFFFFFFFF
      if crc ≠ header.image_crc then
        .error (.crcMismatch header.image_id header.image_crc crc)
      else
        .ok (⟨header, bits⟩,
             (rest.drop length).drop (num_padding_bytes length))

theorem set_from_file_ok {s : List Nat} {h : ImageHdr} {rest : List Nat}
    (hok : ImageHdr.set_from_file s = .ok (h, rest)) :
    24 ≤ s.length ∧ rest = s.drop 24 := by
  unfold ImageHdr.set_from_file at hok
  simp only [ImageHdr.length] at hok
  split at hok
  · exact absurd hok (by simp)
  · split at hok
    · exact absurd hok (by simp)
    · rename_i hshort
      simp only [List.length_take] at hshort
      constructor
      · omega
      · split at hok
        · exact absurd hok (by simp)
        · simp only [Except.ok.injEq, Prod.mk.injEq] at hok
          exact hok.2.symm

theorem set_from_stream_ok_length {s : List Nat} {img : Image}
    {rest : List Nat} (h : Image.set_from_stream s = .ok (img, rest)) :
    rest.length < s.length ∧
      rest = ((s.drop 24).drop img.header.image_len).drop
        (num_padding_bytes img.header.image_len) ∧
      img.header.image_len ≤ s.length - 24 := by
  unfold Image.set_from_stream at h
  split at h
  · exact absurd h (by simp)
  · rename_i hd rest1 hfile
    obtain ⟨hlen24, hrest1⟩ := set_from_file_ok hfile
    simp only at h
    split at h
    · exact absurd h (by simp)
    · rename_i hpay
      split at h
      · exact absurd h (by simp)
      · simp only [Except.ok.injEq, Prod.mk.injEq] at h
        obtain ⟨himg, hrest⟩ := h
        subst hrest hrest1
        have himg' : img.header = hd ∧
            img.bits = (s.drop 24).take hd.image_len := by
          cases himg; exact ⟨rfl, rfl⟩
        simp only [List.length_take, List.length_drop, ne_eq, not_not] at hpay
        rw [himg'.1]
        refine ⟨?_, rfl, ?_⟩
        · simp only [List.length_drop]
          omega
        · omega

/-- The `while True` read loop shared by `make_stream` and `dump_stream`:
parse images off the stream until `NoHdr`; any other failure propagates. -/
def readStream (s : List Nat) : Except StreamFail (List Image) :=
  match hm : Image.set_from_stream s with
  | .error (.hdr .NoHdr) => .ok []
  | .error e => .error e
  | .ok (img, rest) =>
    match readStream rest with
    | .error e => .error e
    | .ok imgs => .ok (img :: imgs)
termination_by s.length
decreasing_by exact (set_from_stream_ok_length hm).1

/-- The first little-endian 64-bit word of the header at the front of
stream `s` (the word holding magic, versions, header length, image id). -/
def hdr_w0 (s : List Nat) : Nat :=
  leList ((s.take ImageHdr.length).take 8)


/-- Outcome analysis of `ImageHdr.decode_words`: the exact accept/reject
conditions on the packed words. -/
theorem decode_words_cases (w0 w1 w2 : Nat) :
    match ImageHdr.decode_words w0 w1 w2 with
    | .error .NoHdr => False
    | .error (.BadHdr _) =>
        w0 &&& 0xFFFFFFFF ≠ 0x13026642 ∨ (w0 >>> 32) &&& 0xF ≠ 1 ∨
        2 < (w0 >>> 36) &&& 0xF ∨ (w0 >>> 52) &&& 0xF ≠ 3
    | .ok h =>
        w0 &&& 0xFFFFFFFF = 0x13026642 ∧ (w0 >>> 32) &&& 0xF = 1 ∧
        (w0 >>> 36) &&& 0xF ≤ 2 ∧ (w0 >>> 52) &&& 0xF = 3 ∧
        h = ⟨(w0 >>> 32) &&& 0xF, (w0 >>> 36) &&& 0xF, (w0 >>> 56) &&& 0xFF,
             (w0 >>> 44) &&& 0xF, (w0 >>> 48) &&& 0xF, w1 &&& 0xFFFFFFFF,
             (w1 >>> 32) &&& 0xFFFFFFFF, w2⟩ := by
  unfold ImageHdr.decode_words
  simp only [ImageHdr.magic, ImageHdr.default_major, ImageHdr.default_minor,
    ImageHdr.length, MAJOR_VER, MINOR_VER]
  split_ifs with hv a1 a2 a3
  · exact Or.inl hv
  · exact Or.inr (Or.inl a1)
  · exact Or.inr (Or.inr (Or.inl a2))
  · exact Or.inr (Or.inr (Or.inr a3))
  · push_neg at hv a1 a2 a3
    exact ⟨hv, a1, a2, a3, rfl⟩
  · exfalso
    omega

/-- Outcome analysis of `ImageHdr.set_from_file`. -/
theorem set_from_file_cases (s : List Nat) :
    match ImageHdr.set_from_file s with
    | .error .NoHdr => s = []
    | .error (.BadHdr msg) =>
        (s ≠ [] ∧ s.length < 24 ∧ msg = "ImageHdr too short") ∨
        (24 ≤ s.length ∧
          (hdr_w0 s &&& 0xFFFFFFFF ≠ 0x13026642 ∨
           (hdr_w0 s >>> 32) &&& 0xF ≠ 1 ∨ 2 < (hdr_w0 s >>> 36) &&& 0xF ∨
           (hdr_w0 s >>> 52) &&& 0xF ≠ 3))
    | .ok (_, rest) => 24 ≤ s.length ∧ rest = s.drop 24 := by
  by_cases hnil : s.take ImageHdr.length = []
  · have hs : s = [] := by
      rcases List.take_eq_nil_iff.mp hnil with h | h
      · exact absurd h (by simp [ImageHdr.length])
      · exact h
    subst hs
    simp [ImageHdr.set_from_file]
  · by_cases hshort : (s.take ImageHdr.length).length < ImageHdr.length
    · have hred : ImageHdr.set_from_file s =
          .error (.BadHdr "ImageHdr too short") := by
        unfold ImageHdr.set_from_file
        rw [if_neg hnil, if_pos hshort]
      rw [hred]
      refine Or.inl ⟨?_, ?_, rfl⟩
      · intro hs
        exact hnil (by simp [hs])
      · simp only [List.length_take, ImageHdr.length] at hshort
        omega
    · have h24 : 24 ≤ s.length := by
        simp only [List.length_take, ImageHdr.length] at hshort
        omega
      have hcases := decode_words_cases
        (leList ((s.take ImageHdr.length).take 8))
        (leList (((s.take ImageHdr.length).drop 8).take 8))
        (leList (((s.take ImageHdr.length).drop 16).take 8))
      have hred : ImageHdr.set_from_file s =
          match ImageHdr.decode_words (leList ((s.take ImageHdr.length).take 8))
              (leList (((s.take ImageHdr.length).drop 8).take 8))
              (leList (((s.take ImageHdr.length).drop 16).take 8)) with
          | .error e => .error e
          | .ok h => .ok (h, s.drop ImageHdr.length) := by
        unfold ImageHdr.set_from_file
        rw [if_neg hnil, if_neg hshort]
      rcases hde : ImageHdr.decode_words
          (leList ((s.take ImageHdr.length).take 8))
          (leList (((s.take ImageHdr.length).drop 8).take 8))
          (leList (((s.take ImageHdr.length).drop 16).take 8)) with e | h
      · rw [hde] at hred hcases
        rw [hred]
        cases e with
        | NoHdr => exact absurd hcases (by simp)
        | BadHdr msg => exact Or.inr ⟨h24, hcases⟩
      · rw [hde] at hred hcases
        rw [hred]
        exact ⟨h24, rfl⟩

/-- C2 (amended).  Parsing one record from a stream yields exactly one of:
`NoHdr` when zero bytes are available; `BadHdr` when 1 to 23 bytes are
available ("too short") or when magic / major / minor / header-length are
unacceptable; `tooShort` when fewer than `image_len` payload bytes remain;
`crcMismatch` — naming the stored and the computed CRC — when the CRC-32
over payload followed by the padding actually read differs from the
stored `image_crc`; otherwise it succeeds and consumes exactly
`24 + image_len + min(padding, bytes remaining after the payload)` bytes.
(The original claim's count `24 + image_len + padding` holds only when
the stream extends past the payload by the full padding length; see the
counterexample.) -/
theorem C2_set_from_stream_cases (s : List Nat) :
    match Image.set_from_stream s with
    | .error (.hdr .NoHdr) => s = []
    | .error (.hdr (.BadHdr msg)) =>
        (s ≠ [] ∧ s.length < 24 ∧ msg = "ImageHdr too short") ∨
        (24 ≤ s.length ∧
          (hdr_w0 s &&& 0xFFFFFFFF ≠ 0x13026642 ∨
           (hdr_w0 s >>> 32) &&& 0xF ≠ 1 ∨ 2 < (hdr_w0 s >>> 36) &&& 0xF ∨
           (hdr_w0 s >>> 52) &&& 0xF ≠ 3))
    | .error (.tooShort id) =>
        ∃ h, ImageHdr.set_from_file s = .ok (h, s.drop 24) ∧
          id = h.image_id ∧ s.length < 24 + h.image_len
    | .error (.crcMismatch id stored computed) =>
        ∃ h, ImageHdr.set_from_file s = .ok (h, s.drop 24) ∧
          24 + h.image_len ≤ s.length ∧ id = h.image_id ∧
          stored = h.image_crc ∧
          computed = crc32 (((s.drop 24).drop h.image_len).take
              (num_padding_bytes h.image_len))
            (crc32 ((s.drop 24).take h.image_len) 0) &&& 0xFFFFFFFF ∧
          computed ≠ stored
    | .ok (img, rest) =>
        ImageHdr.set_from_file s = .ok (img.header, s.drop 24) ∧
        img.bits = (s.drop 24).take img.header.image_len ∧
        s.length - rest.length = 24 + img.header.image_len +
          min (num_padding_bytes img.header.image_len)
            (s.length - (24 + img.header.image_len)) := by
  have hfc := set_from_file_cases s
  unfold Image.set_from_stream
  rcases hf : ImageHdr.set_from_file s with e | ⟨h, rest1⟩
  · rw [hf] at hfc
    cases e with
    | NoHdr => exact hfc
    | BadHdr msg => exact hfc
  · rw [hf] at hfc
    obtain ⟨h24, hrest1⟩ := hfc
    subst hrest1
    simp only
    split_ifs with hpay hcrc
    · refine ⟨h, rfl, rfl, ?_⟩
      simp only [List.length_take, List.length_drop] at hpay
      omega
    · refine ⟨h, rfl, ?_, rfl, rfl, rfl, hcrc⟩
      simp only [List.length_take, List.length_drop, ne_eq, not_not] at hpay
      omega
    · refine ⟨rfl, rfl, ?_⟩
      simp only [List.length_take, List.length_drop, ne_eq, not_not] at hpay
      simp only [List.length_drop]
      omega

/-- Witness for C1 at a concrete header. -/
theorem C1_header_roundtrip_witness :
    ImageHdr.set_from_file (ImageHdr.get_bits ⟨1, 2, 3, 1, 2, 8, 123, 5⟩) =
      .ok (⟨1, 2, 3, 1, 2, 8, 123, 5⟩, []) :=
  C1_header_roundtrip ⟨1, 2, 3, 1, 2, 8, 123, 5⟩ (by decide) (by decide)
    (by decide) (by decide) (by decide) (by decide) (by decide) (by decide)

/-- A header whose stored CRC equals the CRC of the one-byte payload `[0]`
followed by an empty padding read. -/
def cex_hdr : ImageHdr :=
  { major := 1, minor := 2, image_id := 3, next_img_ver := 0,
    cur_img_ver := 0, image_len := 1, image_crc := crc32 [0] 0,
    following_images := 0 }

/-- A stream that ends right after the payload: the 7 padding bytes are
missing, yet the CRC over payload-plus-(empty)-padding matches. -/
def cex_stream : List Nat := cex_hdr.get_bits ++ [0]

/-- Counterexample to C2 as stated: `Image.set_from_stream` succeeds on
`cex_stream` (no failure is raised) but consumes 25 bytes, not
`24 + image_len + ((8 - image_len mod 8) mod 8) = 32` bytes — the padding
read simply returns the 0 bytes that remain. -/
theorem C2_counterexample :
    Image.set_from_stream cex_stream = .ok (⟨cex_hdr, [0]⟩, []) ∧
    cex_stream.length - ([] : List Nat).length = 25 ∧
    24 + cex_hdr.image_len + num_padding_bytes cex_hdr.image_len = 32 := by
  refine ⟨by rfl, by decide, by decide⟩

/-! ## The image type table -/

/-- `image_list` from the source: (command-line option, description,
image ID for header).  Order is significant: it is the default emission
order of `make_stream`. -/
def image_list : List (String × String × Nat) :=
  [("psc-bl",    "PSC bootloader image",                  36),
   ("psc-fw",    "PSC framework image",                  37),
   ("bl2r-cert", "RIoT Core (BL2R) content certificate",  31),
   ("bl2r",      "RIoT Core (BL2R) bin",                  30),
   ("bl2-cert",  "Trusted Boot Firmware BL2 certificate", 6),
   ("bl2",       "Trusted Boot Firmware BL2 bin",         1),
   ("sys",       "Running system's part number or PSID",  29),
   ("ddr-cert",  "DDR Images Content Certificate",        38),
   ("ddr_ini", "File From Which Will Load DDR (pseudo spd) Parameters", 32),
   ("snps_images", "Combined SNPS Images for all DIMM types", 33),
   ("ddr_ate_imem", "Analog Test Engine INSTRUCTIONS", 34),
   ("ddr_ate_dmem", "Analog Test Engine DATA", 35),
   ("bl30-key-cert", "SCP Firmware BL3-0 key certificate", 8),
   ("bl30-cert", "SCP Firmware BL3-0 certificate", 12),
   ("bl30", "SCP Firmware BL3-0", 2),
   ("trusted-key-cert", "Trusted key certificate", 7),
   ("bl31-key-cert", "EL3 Runtime Firmware BL3-1 key certificate", 9),
   ("bl31-cert", "EL3 Runtime Firmware BL3-1 content certificate", 13),
   ("bl31", "EL3 Runtime Firmware BL3-1 bin", 3),
   ("psc-app",   "PSC application image",                 39),
   ("bl32-key-cert", "Secure Payload BL3-2 (Trusted OS) key certificate", 10),
   ("bl32-cert", "Secure Payload BL3-2 (Trusted OS) content certificate", 14),
   ("bl32", "Secure Payload BL3-2 (Trusted OS) bin", 4),
   ("bl33-key-cert", "Non-Trusted Firmware BL3-3 key certificate", 11),
   ("bl33-cert", "Non-Trusted Firmware BL3-3 content certificate", 15),
   ("bl33", "Non-Trusted Firmware BL3-3 bin", 5),
   ("capsule", "UEFI capsule image", 52),
   ("boot-acpi", "Name of the ACPI table", 55),
   ("boot-dtb", "Name of the dtb file", 56),
   ("boot-desc", "Default boot menu item description", 57),
   ("boot-path", "Boot image path", 58),
   ("boot-args", "Arguments for boot image", 59),
   ("boot-timeout", "Boot menu timeout", 60),
   ("uefi-tests", "Specify what UEFI tests to run", 61),
   ("ramdisk", "RAM Disk image", 54),
   ("image", "Boot image", 62),
   ("initramfs", "In-memory filesystem", 63)]

/-- `image_table`: map command-line option to (description, image ID).
The source list has pairwise-distinct names, so dict-building from the
list coincides with first-match lookup. -/
def image_table (x : String) : Option (String × Nat) :=
  (image_list.find? (fun e => e.1 == x)).map (fun e => e.2)

/-- `rev_image_table`: map image ID to (command-line option, description).
The source list has pairwise-distinct IDs, so dict-building from the list
coincides with first-match lookup. -/
def rev_image_table (z : Nat) : Option (String × String) :=
  (image_list.find? (fun e => e.2.2 == z)).map (fun e => (e.1, e.2.1))

/-! ## Image construction from a caller-supplied source -/

/-- Bytes of a literal source, as Python's `bytes(s, 'utf-8')`. -/
def strBytes (s : String) : List Nat :=
  s.toUTF8.toList.map (fun b => b.toNat)

/-- Split a list of characters at its last '-', as `idstr.rsplit('-', 1)`
does when a '-' is present: returns (before, after). -/
def rsplit_dash (s : List Char) : List Char × List Char :=
  let after := (s.reverse.takeWhile (fun c => c ≠ '-')).reverse
  (s.take (s.length - after.length - 1), after)

/-- Decimal value of a digit string, as Python's `int`. -/
def digits_to_nat (ds : List Char) : Nat :=
  ds.foldl (fun a c => 10 * a + (c.toNat - '0'.toNat)) 0

/-- The `-vN` suffix resolution of `Image.__set_from_file`: if `idstr`
contains a '-', split at the last one; if the tail is `v` followed by at
least one digit and the while the stripped name is a known image type,
use the stripped name and the parsed version; otherwise keep `idstr`
unchanged with version 0. -/
def resolve_idstr (idstr : String) : String × Nat :=
  if '-' ∈ idstr.data then
    let p := rsplit_dash idstr.data
    if 1 < p.2.length ∧ p.2.head? = some 'v' ∧
        (p.2.drop 1).all Char.isDigit = true then
      if (image_table ⟨p.1⟩).isSome then (⟨p.1⟩, digits_to_nat (p.2.drop 1))
      else (idstr, 0)
    else (idstr, 0)
  else (idstr, 0)

/-- Failures of `make_stream`'s collection phases: the `KeyError` raised
by `image_table[idstr]` on an unknown caller-supplied name (the spec calls
it `UnknownImageType`), the `KeyError` raised by
`rev_image_table[image_id]` on an unknown numeric ID in an input stream,
and propagated stream-parse failures. -/
inductive MkFail where
  | unknownImageType (idstr : String) : MkFail
  | keyErrorRev (image_id : Nat) : MkFail
  | stream : StreamFail → MkFail
deriving DecidableEq, Repr

/-- `Image.__set_from_file`: build an image from a file (via the
file-system map `fs`) or from a literal source prefixed with `=`.
Computes the CRC over payload plus zero padding, resolves the optional
`-vN` suffix, and constructs a fresh header (default major/minor,
`next_img_ver` and `following_images` left 0). -/
def Image.set_from_file (fs : String → List Nat) (infile idstr : String) :
    Except MkFail Image :=
  let bits := if infile.data.head? = some '=' then
                strBytes (String.mk (infile.data.drop 1))
              else fs infile
  let length := bits.length
  let crc := crc32 (List.replicate (num_padding_bytes length) 0)
    (crc32 bits 0) &&& 0xFFFFFFFF
  let r := resolve_idstr idstr
  match image_table r.1 with
  | none => .error (.unknownImageType r.1)
  | some d =>
    .ok ⟨{ image_id := d.2, image_len := length, image_crc := crc,
           cur_img_ver := r.2 }, bits⟩

/-! ## The assembler: `make_stream` -/

/-- A per-type Python dict mapping version number to image, as an
association list with replace-on-insert semantics. -/
abbrev VerMap := List (Nat × Image)

def verInsert (m : VerMap) (k : Nat) (v : Image) : VerMap :=
  match m with
  | [] => [(k, v)]
  | (k', v') :: rest =>
    if k' = k then (k, v) :: rest else (k', v') :: verInsert rest k v

def verGet (m : VerMap) (k : Nat) : Option Image :=
  match m with
  | [] => none
  | p :: rest => if p.1 = k then some p.2 else verGet rest k

def verKeys (m : VerMap) : List Nat := m.map (fun p => p.1)

/-- Python's `dict.update`: overlay entries replace same-key entries. -/
def verUpdate (base overlay : VerMap) : VerMap :=
  overlay.foldl (fun acc p => verInsert acc p.1 p.2) base

/-- The outer Python dict keyed by symbolic type name. -/
abbrev ImgMap := List (String × VerMap)

def imgFind (m : ImgMap) (i : String) : Option VerMap :=
  match m with
  | [] => none
  | q :: rest => if q.1 = i then some q.2 else imgFind rest i

/-- `images[id][ver] = img` with auto-creation of the inner dict. -/
def imgAdd (m : ImgMap) (i : String) (k : Nat) (v : Image) : ImgMap :=
  match m with
  | [] => [(i, [(k, v)])]
  | (i', vm) :: rest =>
    if i' = i then (i, verInsert vm k v) :: rest
    else (i', vm) :: imgAdd rest i k v

/-- The per-input-file loop of `make_stream`: parse images until `NoHdr`,
recording each under its symbolic name (via `rev_image_table`, whose
`KeyError` is fatal) and accumulating the `fim_map` bitmap. -/
def collect_stream (s : List Nat) (images : ImgMap) (fim_map : Nat) :
    Except MkFail (ImgMap × Nat) :=
  match hm : Image.set_from_stream s with
  | .error (.hdr .NoHdr) => .ok (images, fim_map)
  | .error e => .error (.stream e)
  | .ok (img, rest) =>
    match rev_image_table img.header.image_id with
    | none => .error (.keyErrorRev img.header.image_id)
    | some nd =>
      collect_stream rest (imgAdd images nd.1 img.header.cur_img_ver img)
        (fim_map ||| (1 <<< img.header.image_id))
termination_by s.length
decreasing_by exact (set_from_stream_ok_length hm).1

def collect_streams (infnt : List (List Nat)) (images : ImgMap)
    (fim_map : Nat) : Except MkFail (ImgMap × Nat) :=
  match infnt with
  | [] => .ok (images, fim_map)
  | s :: rest =>
    match collect_stream s images fim_map with
    | .error e => .error e
    | .ok (images', fim') => collect_streams rest images' fim'

/-- The command-line loop of `make_stream`: build each image with
`Image.set_from_file`, record it under its symbolic name, remember the
order in which distinct names first appeared, and accumulate `fim_map`. -/
def collect_cmdline (fs : String → List Nat)
    (image_tuples : List (String × String)) (images : ImgMap)
    (order : List String) (fim_map : Nat) :
    Except MkFail (ImgMap × List String × Nat) :=
  match image_tuples with
  | [] => .ok (images, order, fim_map)
  | (idver, fn) :: rest =>
    match Image.set_from_file fs fn idver with
    | .error e => .error e
    | .ok img =>
      match rev_image_table img.header.image_id with
      | none => .error (.keyErrorRev img.header.image_id)
      | some nd =>
        collect_cmdline fs rest (imgAdd images nd.1 img.header.cur_img_ver img)
          (if nd.1 ∈ order then order else order ++ [nd.1])
          (fim_map ||| (1 <<< img.header.image_id))

/-- `sorted(keys)`. -/
def sortNat (l : List Nat) : List Nat := List.insertionSort (· ≤ ·) l

/-- `[images[x] for x in sorted(images.keys())]`. -/
def run_of (m : VerMap) : List Image :=
  (sortNat (verKeys m)).filterMap (verGet m)

/-- The three header mutations `make_stream` performs on an image just
before writing it: `set_next_image_ver`, `set_following_images`, and the
double `minor` assignment (the first write of `MAJOR_VER` to `minor` is
immediately overwritten by `MINOR_VER`, as in the source). -/
def stamp_image (img : Image) (nxt fim : Nat) : Image :=
  let h1 := { img.header with next_img_ver := nxt, following_images := fim }
  let h2 := { h1 with minor := MAJOR_VER }
  let h3 := { h2 with minor := MINOR_VER }
  { img with header := h3 }

/-- `fim_map &= ~(1 << image_id)`: clear one bit of the bitmap (flipping
it with xor exactly when it is set). -/
def clear_bit (fim n : Nat) : Nat :=
  if fim.testBit n then fim ^^^ (1 <<< n) else fim

/-- The `while len(images) > 0` loop of `make_stream` over one type's
version-sorted run: the last image gets `next_img_ver = 0` and clears its
type's bit in `fim_map` before stamping; every other image points at the
next image's version and stamps the unchanged `fim_map`. -/
def emit_run : List Image → Nat → List Image × Nat
  | [], fim_map => ([], fim_map)
  | [img], fim_map =>
    let fim' := clear_bit fim_map img.header.image_id
    ([stamp_image img 0 fim'], fim')
  | img :: nxt :: rest, fim_map =>
    let out := stamp_image img nxt.header.cur_img_ver fim_map
    let p := emit_run (nxt :: rest) fim_map
    (out :: p.1, p.2)

/-- The per-type merge `images.update(infile_images[i]);
images.update(cmdline_images[i])` (command line overrides same version). -/
def merged_of (infile_images cmdline_images : ImgMap) (i : String) : VerMap :=
  let images0 : VerMap := []
  let images1 := match imgFind infile_images i with
    | some vm => verUpdate images0 vm
    | none => images0
  match imgFind cmdline_images i with
  | some vm => verUpdate images1 vm
  | none => images1

/-- The emission loop of `make_stream` over the type order: skip types
with no versions, otherwise emit the version-sorted run, threading
`fim_map`. -/
def emit_all : List String → ImgMap → ImgMap → Nat → List Image
  | [], _, _, _ => []
  | i :: rest, infile_images, cmdline_images, fim_map =>
    let images := merged_of infile_images cmdline_images i
    if images.length = 0 then emit_all rest infile_images cmdline_images fim_map
    else
      let p := emit_run (run_of images) fim_map
      p.1 ++ emit_all rest infile_images cmdline_images p.2

/-- `make_stream`: read every input stream, build every command-line
image, pick the emission order (command-line first-appearance order in
expert mode, `image_list` order otherwise), and emit.  Every failure
point precedes the opening of the output file, so a failure produces no
output records. -/
def make_stream (infnt : List (List Nat)) (fs : String → List Nat)
    (image_tuples : List (String × String)) (expert : Bool) :
    Except MkFail (List Image) :=
  match collect_streams infnt [] 0 with
  | .error e => .error e
  | .ok (infile_images, fim1) =>
    match collect_cmdline fs image_tuples [] [] fim1 with
    | .error e => .error e
    | .ok (cmdline_images, cmdline_image_order, fim_map) =>
      let image_order := if expert then cmdline_image_order
                         else image_list.map (fun x => x.1)
      .ok (emit_all image_order infile_images cmdline_images fim_map)

/-! ## The dumper: `dump_stream` -/

/-- The name/description pair `dump_stream` derives for one image:
table lookup with the `image_id_N` / `Unknown image type` fallback, plus
the `-vN` suffix when the header's minor is at least 2. -/
def dump_entry (img : Image) : String × String :=
  let nd := match rev_image_table img.header.image_id with
    | some nd => nd
    | none => ("image_id_" ++ Nat.repr img.header.image_id,
               "Unknown image type, ID " ++ Nat.repr img.header.image_id)
  if 2 ≤ img.header.minor then
    (nd.1 ++ "-v" ++ Nat.repr img.header.cur_img_ver,
     nd.2 ++ " (version " ++ Nat.repr img.header.cur_img_ver ++ ")")
  else nd

/-- `dump_stream`: read the whole stream (propagating parse failures) and
derive each image's listing/extraction entry; extraction writes exactly
`img.bits` (payload only). -/
def dump_stream (s : List Nat) :
    Except StreamFail (List (String × String × Image)) :=
  match readStream s with
  | .error e => .error e
  | .ok imgs =>
    .ok (imgs.map (fun img => ((dump_entry img).1, (dump_entry img).2, img)))

/-! ## Facts about the image type table -/

theorem image_list_names_nodup : (image_list.map (fun e => e.1)).Nodup := by
  decide

theorem image_list_ids_nodup : (image_list.map (fun e => e.2.2)).Nodup := by
  decide

theorem find?_eq_of_mem_nodup {α β : Type} [BEq β] [LawfulBEq β] (f : α → β)
    {l : List α} {e : α} (hnd : (l.map f).Nodup) (hmem : e ∈ l) :
    l.find? (fun x => f x == f e) = some e := by
  induction l with
  | nil => cases hmem
  | cons a rest ih =>
    simp only [List.map_cons, List.nodup_cons, List.mem_map] at hnd
    rcases List.mem_cons.mp hmem with h | h
    · subst h
      rw [List.find?_cons_of_pos _ (by simp)]
    · have hne : ¬((f a == f e) = true) := by
        simp only [beq_iff_eq]
        intro heq
        exact hnd.1 ⟨e, h, heq.symm⟩
      rw [show List.find? (fun x => f x == f e) (a :: rest) =
          List.find? (fun x => f x == f e) rest from
        List.find?_cons_of_neg _ hne]
      exact ih hnd.2 h

theorem rev_image_table_eq_some {n : Nat} {x d : String}
    (h : rev_image_table n = some (x, d)) :
    (x, d, n) ∈ image_list ∧ image_table x = some (d, n) := by
  unfold rev_image_table at h
  rcases hfind : image_list.find? (fun e => e.2.2 == n) with _ | e
  · rw [hfind] at h
    simp at h
  · rw [hfind] at h
    simp only [Option.map_some', Option.some.injEq] at h
    have hmem := List.mem_of_find?_eq_some hfind
    have hbeq : e.2.2 = n := by
      have := List.find?_some hfind
      simpa using this
    have he : e = (x, d, n) := by
      obtain ⟨e1, e2, e3⟩ := e
      simp only [Prod.mk.injEq] at h hbeq ⊢
      exact ⟨h.1, h.2, hbeq⟩
    subst he
    refine ⟨hmem, ?_⟩
    unfold image_table
    have := find?_eq_of_mem_nodup (fun p : String × String × Nat => p.1)
      image_list_names_nodup hmem
    rw [this]
    rfl

theorem image_table_eq_some {x d : String} {n : Nat}
    (h : image_table x = some (d, n)) :
    (x, d, n) ∈ image_list ∧ rev_image_table n = some (x, d) := by
  unfold image_table at h
  rcases hfind : image_list.find? (fun e => e.1 == x) with _ | e
  · rw [hfind] at h
    simp at h
  · rw [hfind] at h
    simp only [Option.map_some', Option.some.injEq] at h
    have hmem := List.mem_of_find?_eq_some hfind
    have hbeq : e.1 = x := by
      have := List.find?_some hfind
      simpa using this
    have he : e = (x, d, n) := by
      obtain ⟨e1, e2, e3⟩ := e
      simp only [Prod.mk.injEq] at h hbeq ⊢
      exact ⟨hbeq, h.1, h.2⟩
    subst he
    refine ⟨hmem, ?_⟩
    unfold rev_image_table
    have := find?_eq_of_mem_nodup
      (fun p : String × String × Nat => p.2.2) image_list_ids_nodup hmem
    rw [this]
    rfl

/-- Distinct symbolic names have distinct numeric IDs. -/
theorem image_table_inj {x x' d d' : String} {n n' : Nat}
    (hx : image_table x = some (d, n)) (hx' : image_table x' = some (d', n'))
    (hne : x ≠ x') : n ≠ n' := by
  intro heq
  subst heq
  have h1 := (image_table_eq_some hx).1
  have h2 := (image_table_eq_some hx').1
  have := List.inj_on_of_nodup_map image_list_ids_nodup h1 h2 rfl
  simp only [Prod.mk.injEq] at this
  exact hne this.1


/-! ## Dictionary lemmas -/

theorem verGet_verInsert (m : VerMap) (k : Nat) (v : Image) (k' : Nat) :
    verGet (verInsert m k v) k' = if k' = k then some v else verGet m k' := by
  induction m with
  | nil =>
    by_cases h : k' = k
    · subst h
      simp [verInsert, verGet]
    · have h' : ¬(k = k') := fun hh => h hh.symm
      simp [verInsert, verGet, h, h']
  | cons p rest ih =>
    by_cases h : p.1 = k
    · subst h
      by_cases hk : k' = p.1
      · subst hk
        simp [verInsert, verGet]
      · have h2 : ¬(p.1 = k') := fun hh => hk hh.symm
        simp [verInsert, verGet, hk, h2]
    · by_cases hpk : p.1 = k'
      · have h2 : ¬(k' = k) := by
          rw [← hpk]
          exact fun hh => h hh
        simp [verInsert, verGet, h, hpk, h2]
      · simp [verInsert, verGet, h, hpk, ih]

theorem imgFind_cons (q : String × VerMap) (rest : ImgMap) (i : String) :
    imgFind (q :: rest) i = if q.1 = i then some q.2 else imgFind rest i :=
  rfl

theorem verGet_eq_none {m : VerMap} {k : Nat} (h : k ∉ verKeys m) :
    verGet m k = none := by
  induction m with
  | nil => rfl
  | cons p rest ih =>
    unfold verKeys at h
    simp only [List.map_cons, List.mem_cons, not_or] at h
    unfold verGet
    rw [if_neg (fun hh => h.1 hh.symm)]
    exact ih h.2

theorem verGet_mem {m : VerMap} {k : Nat} {v : Image}
    (h : verGet m k = some v) : (k, v) ∈ m := by
  induction m with
  | nil => simp [verGet] at h
  | cons p rest ih =>
    unfold verGet at h
    split_ifs at h with hp
    · simp only [Option.some.injEq] at h
      have : p = (k, v) := by
        obtain ⟨p1, p2⟩ := p
        simp only at hp h
        rw [hp, h]
      rw [← this]
      exact List.mem_cons_self _ _
    · exact List.mem_cons_of_mem _ (ih h)

theorem verGet_of_mem {m : VerMap} {k : Nat} {v : Image}
    (hnd : (verKeys m).Nodup) (h : (k, v) ∈ m) : verGet m k = some v := by
  induction m with
  | nil => cases h
  | cons p rest ih =>
    unfold verKeys at hnd
    simp only [List.map_cons, List.nodup_cons] at hnd
    unfold verGet
    rcases List.mem_cons.mp h with h | h
    · rw [← h]
      simp
    · rw [if_neg]
      · exact ih hnd.2 h
      · intro hp
        exact hnd.1 (hp ▸ List.mem_map_of_mem (fun q => q.1) h)

theorem verInsert_ne_nil (m : VerMap) (k : Nat) (v : Image) :
    verInsert m k v ≠ [] := by
  cases m with
  | nil => simp [verInsert]
  | cons p rest =>
    unfold verInsert
    split_ifs <;> simp

theorem verInsert_mem {m : VerMap} {k : Nat} {v : Image} {p : Nat × Image}
    (h : p ∈ verInsert m k v) : p = (k, v) ∨ p ∈ m := by
  induction m with
  | nil =>
    simp [verInsert] at h
    exact Or.inl h
  | cons q rest ih =>
    unfold verInsert at h
    split_ifs at h with hq
    · rcases List.mem_cons.mp h with h | h
      · exact Or.inl h
      · exact Or.inr (List.mem_cons_of_mem _ h)
    · rcases List.mem_cons.mp h with h | h
      · exact Or.inr (List.mem_cons.mpr (Or.inl h))
      · rcases ih h with h | h
        · exact Or.inl h
        · exact Or.inr (List.mem_cons_of_mem _ h)

theorem verInsert_keys (m : VerMap) (k : Nat) (v : Image) :
    verKeys (verInsert m k v) =
      if k ∈ verKeys m then verKeys m else verKeys m ++ [k] := by
  induction m with
  | nil => simp [verInsert, verKeys]
  | cons p rest ih =>
    by_cases h : p.1 = k
    · subst h
      simp [verInsert, verKeys]
    · by_cases hk : k ∈ List.map (fun p => p.1) rest
      · have hk2 : k ∈ verKeys (p :: rest) := by
          unfold verKeys
          simp only [List.map_cons, List.mem_cons]
          right
          exact hk
        rw [if_pos hk2]
        unfold verInsert
        rw [if_neg h]
        unfold verKeys at ih ⊢
        simp only [List.map_cons]
        rw [ih, if_pos hk]
      · have hk2 : k ∉ verKeys (p :: rest) := by
          unfold verKeys
          simp only [List.map_cons, List.mem_cons, not_or]
          exact ⟨fun hh => h hh.symm, hk⟩
        rw [if_neg hk2]
        unfold verInsert
        rw [if_neg h]
        unfold verKeys at ih ⊢
        simp only [List.map_cons]
        rw [ih, if_neg hk, List.cons_append]

theorem verInsert_keys_nodup {m : VerMap} (hnd : (verKeys m).Nodup)
    (k : Nat) (v : Image) : (verKeys (verInsert m k v)).Nodup := by
  rw [verInsert_keys]
  split_ifs with h
  · exact hnd
  · simp [List.nodup_append, hnd, h]

theorem verUpdate_get_none {base overlay : VerMap} {k : Nat}
    (h : verGet overlay k = none) :
    verGet (verUpdate base overlay) k = verGet base k := by
  induction overlay generalizing base with
  | nil => rfl
  | cons p rest ih =>
    unfold verGet at h
    split_ifs at h with hp
    unfold verUpdate at ih ⊢
    simp only [List.foldl_cons]
    rw [ih h]
    have := verGet_verInsert base p.1 p.2 k
    rw [if_neg (fun hh => hp hh.symm)] at this
    exact this

theorem verUpdate_get_some {base overlay : VerMap} {k : Nat} {v : Image}
    (hnd : (verKeys overlay).Nodup) (h : verGet overlay k = some v) :
    verGet (verUpdate base overlay) k = some v := by
  induction overlay generalizing base with
  | nil => cases h
  | cons p rest ih =>
    unfold verKeys at hnd
    simp only [List.map_cons, List.nodup_cons] at hnd
    unfold verGet at h
    split_ifs at h with hp
    · have hrest : verGet rest k = none := by
        apply verGet_eq_none
        unfold verKeys
        rw [← hp]
        intro hmem
        exact hnd.1 hmem
      unfold verUpdate
      simp only [List.foldl_cons]
      have hupd := @verUpdate_get_none (verInsert base p.1 p.2) rest k hrest
      unfold verUpdate at hupd
      rw [hupd]
      have := verGet_verInsert base p.1 p.2 k
      rw [if_pos hp.symm] at this
      rw [this, ← h]
    · unfold verUpdate at ih ⊢
      simp only [List.foldl_cons]
      exact ih hnd.2 h

theorem verUpdate_mem {base overlay : VerMap} {p : Nat × Image}
    (h : p ∈ verUpdate base overlay) : p ∈ base ∨ p ∈ overlay := by
  induction overlay generalizing base with
  | nil => exact Or.inl h
  | cons q rest ih =>
    unfold verUpdate at h ih
    simp only [List.foldl_cons] at h
    rcases ih h with h | h
    · rcases verInsert_mem h with h | h
      · right
        rw [h]
        exact List.mem_cons_self _ _
      · exact Or.inl h
    · exact Or.inr (List.mem_cons_of_mem _ h)

theorem verUpdate_keys_nodup {base overlay : VerMap}
    (hnd : (verKeys base).Nodup) :
    (verKeys (verUpdate base overlay)).Nodup := by
  induction overlay generalizing base with
  | nil => exact hnd
  | cons p rest ih =>
    unfold verUpdate at ih ⊢
    simp only [List.foldl_cons]
    exact ih (verInsert_keys_nodup hnd p.1 p.2)

theorem verUpdate_ne_nil {base overlay : VerMap}
    (h : base ≠ [] ∨ overlay ≠ []) : verUpdate base overlay ≠ [] := by
  induction overlay generalizing base with
  | nil =>
    rcases h with h | h
    · exact h
    · simp at h
  | cons p rest ih =>
    unfold verUpdate at ih ⊢
    simp only [List.foldl_cons]
    exact ih (Or.inl (verInsert_ne_nil _ _ _))

theorem imgFind_imgAdd (m : ImgMap) (i : String) (k : Nat) (v : Image)
    (i' : String) :
    imgFind (imgAdd m i k v) i' =
      if i' = i then some (verInsert ((imgFind m i).getD []) k v)
      else imgFind m i' := by
  induction m with
  | nil =>
    by_cases h : i' = i
    · subst h
      simp [imgAdd, imgFind, verInsert]
    · have h' : ¬(i = i') := fun hh => h hh.symm
      simp [imgAdd, imgFind, h, h']
  | cons q rest ih =>
    by_cases h : q.1 = i
    · subst h
      by_cases hk : i' = q.1
      · subst hk
        simp [imgAdd, imgFind]
      · have h2 : ¬(q.1 = i') := fun hh => hk hh.symm
        simp [imgAdd, imgFind, hk, h2]
    · by_cases hqk : q.1 = i'
      · have h2 : ¬(i' = i) := by
          rw [← hqk]
          exact fun hh => h hh
        simp [imgAdd, imgFind, h, hqk, h2]
      · simp [imgAdd, imgFind, h, hqk, ih]

theorem imgAdd_mem {m : ImgMap} {i : String} {k : Nat} {v : Image}
    {q : String × VerMap} (h : q ∈ imgAdd m i k v) :
    (q.1 = i ∧ q.2 = verInsert ((imgFind m i).getD []) k v) ∨ q ∈ m := by
  induction m with
  | nil =>
    simp [imgAdd] at h
    subst h
    exact Or.inl ⟨rfl, by simp [imgFind, verInsert]⟩
  | cons p rest ih =>
    by_cases hp : p.1 = i
    · unfold imgAdd at h
      rw [if_pos hp] at h
      rcases List.mem_cons.mp h with h | h
      · subst h
        refine Or.inl ⟨rfl, ?_⟩
        unfold imgFind
        rw [if_pos hp]
        rfl
      · exact Or.inr (List.mem_cons_of_mem _ h)
    · unfold imgAdd at h
      rw [if_neg hp] at h
      rcases List.mem_cons.mp h with h | h
      · exact Or.inr (List.mem_cons.mpr (Or.inl h))
      · rcases ih h with h | h
        · rcases h with ⟨h1, h2⟩
          refine Or.inl ⟨h1, ?_⟩
          have hfind : imgFind (p :: rest) i = imgFind rest i := by
            rw [imgFind_cons, if_neg hp]
          rw [hfind, h2]
        · exact Or.inr (List.mem_cons_of_mem _ h)

theorem imgAdd_keys (m : ImgMap) (i : String) (k : Nat) (v : Image) :
    (imgAdd m i k v).map (fun q => q.1) =
      if i ∈ m.map (fun q => q.1) then m.map (fun q => q.1)
      else m.map (fun q => q.1) ++ [i] := by
  induction m with
  | nil => simp [imgAdd]
  | cons p rest ih =>
    by_cases h : p.1 = i
    · subst h
      simp [imgAdd]
    · by_cases hk : i ∈ rest.map (fun q => q.1)
      · rw [if_pos (by simp only [List.map_cons, List.mem_cons]; right; exact hk)]
        unfold imgAdd
        rw [if_neg h]
        simp only [List.map_cons]
        rw [ih, if_pos hk]
      · rw [if_neg (by
          simp only [List.map_cons, List.mem_cons, not_or]
          exact ⟨fun hh => h hh.symm, hk⟩)]
        unfold imgAdd
        rw [if_neg h]
        simp only [List.map_cons]
        rw [ih, if_neg hk, List.cons_append]

/-! ## Step equations for the read loops -/

theorem collect_stream_eq_nohdr {s : List Nat} {m : ImgMap} {f : Nat}
    (hs : Image.set_from_stream s = .error (.hdr .NoHdr)) :
    collect_stream s m f = .ok (m, f) := by
  unfold collect_stream
  split
  · rfl
  · rename_i e hne heq
    rw [hs] at heq
    injection heq with h1
    subst h1
    exact (hne rfl).elim
  · rename_i img rest heq
    rw [hs] at heq
    exact absurd heq (by simp)

theorem collect_stream_eq_err {s : List Nat} {m : ImgMap} {f : Nat}
    {e : StreamFail} (hs : Image.set_from_stream s = .error e)
    (hne : e ≠ .hdr .NoHdr) :
    collect_stream s m f = .error (.stream e) := by
  unfold collect_stream
  split
  · rename_i heq
    rw [hs] at heq
    injection heq with h1
    exact absurd h1 hne
  · rename_i e2 hne2 heq
    rw [hs] at heq
    injection heq with h1
    subst h1
    rfl
  · rename_i img rest heq
    rw [hs] at heq
    exact absurd heq (by simp)

theorem collect_stream_eq_ok {s : List Nat} {m : ImgMap} {f : Nat}
    {img : Image} {rest : List Nat}
    (hs : Image.set_from_stream s = .ok (img, rest)) :
    collect_stream s m f =
      match rev_image_table img.header.image_id with
      | none => .error (.keyErrorRev img.header.image_id)
      | some nd =>
        collect_stream rest (imgAdd m nd.1 img.header.cur_img_ver img)
          (f ||| (1 <<< img.header.image_id)) := by
  conv_lhs => unfold collect_stream
  split
  · rename_i heq
    rw [hs] at heq
    exact absurd heq (by simp)
  · rename_i e2 hne2 heq
    rw [hs] at heq
    exact absurd heq (by simp)
  · rename_i img2 rest2 heq
    rw [hs] at heq
    injection heq with h1
    injection h1 with h2 h3
    subst h2 h3
    rfl

theorem readStream_eq_nohdr {s : List Nat}
    (hs : Image.set_from_stream s = .error (.hdr .NoHdr)) :
    readStream s = .ok [] := by
  unfold readStream
  split
  · rfl
  · rename_i e hne heq
    rw [hs] at heq
    injection heq with h1
    subst h1
    exact (hne rfl).elim
  · rename_i img rest heq
    rw [hs] at heq
    exact absurd heq (by simp)

theorem readStream_eq_err {s : List Nat} {e : StreamFail}
    (hs : Image.set_from_stream s = .error e) (hne : e ≠ .hdr .NoHdr) :
    readStream s = .error e := by
  unfold readStream
  split
  · rename_i heq
    rw [hs] at heq
    injection heq with h1
    exact absurd h1 hne
  · rename_i e2 hne2 heq
    rw [hs] at heq
    injection heq with h1
    subst h1
    rfl
  · rename_i img rest heq
    rw [hs] at heq
    exact absurd heq (by simp)

theorem readStream_eq_ok {s : List Nat} {img : Image} {rest : List Nat}
    (hs : Image.set_from_stream s = .ok (img, rest)) :
    readStream s =
      match readStream rest with
      | .error e => .error e
      | .ok imgs => .ok (img :: imgs) := by
  conv_lhs => unfold readStream
  split
  · rename_i heq
    rw [hs] at heq
    exact absurd heq (by simp)
  · rename_i e2 hne2 heq
    rw [hs] at heq
    exact absurd heq (by simp)
  · rename_i img2 rest2 heq
    rw [hs] at heq
    injection heq with h1
    injection h1 with h2 h3
    subst h2 h3
    rfl

/-! ## Bitmap and well-formedness machinery -/

theorem testBit_one_shift (n t : Nat) : (1 <<< n).testBit t = decide (t = n) := by
  rw [Nat.testBit_shiftLeft]
  rcases Nat.lt_trichotomy t n with h | h | h
  · simp [Nat.not_le.mpr h]
    omega
  · subst h
    simp [Nat.testBit]
  · have hle : n ≤ t := Nat.le_of_lt h
    simp [hle]
    rw [Nat.testBit_to_div_mod]
    have h2 : 2 ≤ 2 ^ (t - n) := by
      have h1 : 1 ≤ t - n := by omega
      calc (2 : Nat) = 2 ^ 1 := rfl
        _ ≤ 2 ^ (t - n) := Nat.pow_le_pow_right (by norm_num) h1
    have h3 : 1 / 2 ^ (t - n) = 0 := Nat.div_eq_of_lt (by omega)
    rw [h3]
    simp
    omega

/-- Clearing one bit coincides with `ldiff` against the singleton mask. -/
theorem clear_bit_eq_ldiff (fim n : Nat) :
    clear_bit fim n = Nat.ldiff fim (1 <<< n) := by
  apply Nat.eq_of_testBit_eq
  intro t
  unfold clear_bit
  rw [Nat.testBit_ldiff, testBit_one_shift]
  by_cases hb : fim.testBit n = true
  · rw [if_pos hb, Nat.testBit_xor, testBit_one_shift]
    by_cases ht : t = n
    · subst ht
      simp [hb]
    · simp [ht]
  · rw [if_neg hb]
    by_cases ht : t = n
    · subst ht
      simp [Bool.eq_false_iff.mpr hb]
    · simp [ht]

theorem imgFind_mem {m : ImgMap} {i : String} {vm : VerMap}
    (h : imgFind m i = some vm) : (i, vm) ∈ m := by
  induction m with
  | nil => simp [imgFind] at h
  | cons q rest ih =>
    rw [imgFind_cons] at h
    split_ifs at h with hq
    · simp only [Option.some.injEq] at h
      have : q = (i, vm) := by
        obtain ⟨q1, q2⟩ := q
        simp only at hq h
        rw [hq, h]
      rw [← this]
      exact List.mem_cons_self _ _
    · exact List.mem_cons_of_mem _ (ih h)

theorem imgFind_of_mem {m : ImgMap} {i : String} {vm : VerMap}
    (hnd : (m.map (fun q => q.1)).Nodup) (h : (i, vm) ∈ m) :
    imgFind m i = some vm := by
  induction m with
  | nil => cases h
  | cons q rest ih =>
    simp only [List.map_cons, List.nodup_cons] at hnd
    rw [imgFind_cons]
    rcases List.mem_cons.mp h with h | h
    · rw [← h]
      simp
    · rw [if_neg]
      · exact ih hnd.2 h
      · intro hq
        exact hnd.1 (hq ▸ List.mem_map_of_mem (fun r => r.1) h)

theorem verInsert_self_mem (m : VerMap) (k : Nat) (v : Image) :
    (k, v) ∈ verInsert m k v := by
  induction m with
  | nil => simp [verInsert]
  | cons p rest ih =>
    unfold verInsert
    split_ifs with h
    · exact List.mem_cons_self _ _
    · exact List.mem_cons_of_mem _ ih

theorem verInsert_mem_of_ne {m : VerMap} {k : Nat} {v : Image}
    {p : Nat × Image} (hp : p ∈ m) (hne : p.1 ≠ k) : p ∈ verInsert m k v := by
  induction m with
  | nil => cases hp
  | cons q rest ih =>
    unfold verInsert
    split_ifs with h
    · rcases List.mem_cons.mp hp with hh | hh
      · subst hh
        exact absurd h hne
      · exact List.mem_cons_of_mem _ hh
    · rcases List.mem_cons.mp hp with hh | hh
      · rw [hh]
        exact List.mem_cons_self _ _
      · exact List.mem_cons_of_mem _ (ih hh)

theorem imgAdd_self_mem (m : ImgMap) (i : String) (k : Nat) (v : Image) :
    (i, verInsert ((imgFind m i).getD []) k v) ∈ imgAdd m i k v := by
  induction m with
  | nil => simp [imgAdd, imgFind, verInsert]
  | cons q rest ih =>
    by_cases h : q.1 = i
    · unfold imgAdd
      rw [if_pos h]
      have : imgFind (q :: rest) i = some q.2 := by
        rw [imgFind_cons, if_pos h]
      rw [this]
      exact List.mem_cons_self _ _
    · unfold imgAdd
      rw [if_neg h]
      have : imgFind (q :: rest) i = imgFind rest i := by
        rw [imgFind_cons, if_neg h]
      rw [this]
      exact List.mem_cons_of_mem _ ih

theorem imgAdd_mem_of_ne {m : ImgMap} {i : String} {k : Nat} {v : Image}
    {q : String × VerMap} (hq : q ∈ m) (hne : q.1 ≠ i) :
    q ∈ imgAdd m i k v := by
  induction m with
  | nil => cases hq
  | cons p rest ih =>
    unfold imgAdd
    split_ifs with h
    · rcases List.mem_cons.mp hq with hh | hh
      · subst hh
        exact absurd h hne
      · exact List.mem_cons_of_mem _ hh
    · rcases List.mem_cons.mp hq with hh | hh
      · rw [hh]
        exact List.mem_cons_self _ _
      · exact List.mem_cons_of_mem _ (ih hh)

/-- Per-type map WF: distinct version keys; every entry is keyed by its
image's `cur_img_ver` and carries the fixed numeric id `n`. -/
def VerMapWF (vm : VerMap) (n : Nat) : Prop :=
  (verKeys vm).Nodup ∧
  ∀ p ∈ vm, p.2.header.cur_img_ver = p.1 ∧ p.2.header.image_id = n

/-- Outer map WF: distinct symbolic names; every name resolves in the
image type table and its inner map is WF at the table's numeric id. -/
def ImgMapWF (m : ImgMap) : Prop :=
  (m.map (fun q => q.1)).Nodup ∧
  ∀ q ∈ m, ∃ d, image_table q.1 = some d ∧ VerMapWF q.2 d.2

/-- Some image of numeric type `t` is recorded somewhere in the map. -/
def mapHasId (m : ImgMap) (t : Nat) : Prop :=
  ∃ q ∈ m, ∃ p ∈ q.2, p.2.header.image_id = t

/-- The bitmap invariant tying `fim_map` to the collected images. -/
def FimInv (m : ImgMap) (fim : Nat) : Prop :=
  ∀ t, fim.testBit t = true ↔ mapHasId m t

theorem verInsert_wf {vm : VerMap} {n : Nat} (hwf : VerMapWF vm n)
    {k : Nat} {v : Image} (hcur : v.header.cur_img_ver = k)
    (hid : v.header.image_id = n) : VerMapWF (verInsert vm k v) n := by
  refine ⟨verInsert_keys_nodup hwf.1 k v, ?_⟩
  intro p hp
  rcases verInsert_mem hp with h | h
  · subst h
    exact ⟨hcur, hid⟩
  · exact hwf.2 p h

theorem imgAdd_wf {m : ImgMap} {i dsc : String} {img : Image}
    (hwf : ImgMapWF m)
    (htab : image_table i = some (dsc, img.header.image_id)) :
    ImgMapWF (imgAdd m i img.header.cur_img_ver img) := by
  constructor
  · rw [imgAdd_keys]
    split_ifs with h
    · exact hwf.1
    · simp [List.nodup_append, hwf.1, h]
  · intro q hq
    rcases imgAdd_mem hq with ⟨h1, h2⟩ | h
    · refine ⟨(dsc, img.header.image_id), by rw [h1]; exact htab, ?_⟩
      rw [h2]
      have hold : VerMapWF ((imgFind m i).getD []) img.header.image_id := by
        rcases hfind : imgFind m i with _ | vm
        · exact ⟨by simp [verKeys], by simp⟩
        · simp only [Option.getD_some]
          have hmem := imgFind_mem hfind
          obtain ⟨d, hd, hvm⟩ := hwf.2 _ hmem
          simp only at hd
          rw [htab] at hd
          injection hd with hd'
          rw [← hd'] at hvm
          exact hvm
      exact verInsert_wf hold rfl rfl
    · exact hwf.2 q h

theorem mapHasId_imgAdd {m : ImgMap} {i dsc : String} {img : Image}
    (hwf : ImgMapWF m)
    (htab : image_table i = some (dsc, img.header.image_id)) (t : Nat) :
    mapHasId (imgAdd m i img.header.cur_img_ver img) t ↔
      (mapHasId m t ∨ t = img.header.image_id) := by
  constructor
  · rintro ⟨q, hq, p, hp, hid⟩
    rcases imgAdd_mem hq with ⟨h1, h2⟩ | h
    · rw [h2] at hp
      rcases verInsert_mem hp with h | h
      · rw [h] at hid
        exact Or.inr hid.symm
      · rcases hfind : imgFind m i with _ | vm
        · rw [hfind] at h
          simp at h
        · rw [hfind] at h
          simp only [Option.getD_some] at h
          exact Or.inl ⟨(i, vm), imgFind_mem hfind, p, h, hid⟩
    · exact Or.inl ⟨q, h, p, hp, hid⟩
  · rintro (⟨q, hq, p, hp, hid⟩ | ht)
    · obtain ⟨q1, q2⟩ := q
      by_cases hqi : q1 = i
      · subst hqi
        have hfind : imgFind m q1 = some q2 := imgFind_of_mem hwf.1 hq
        by_cases hpk : p.1 = img.header.cur_img_ver
        · obtain ⟨d, hd, hvm⟩ := hwf.2 _ hq
          simp only at hd
          rw [htab] at hd
          injection hd with hd'
          have hpid : p.2.header.image_id = img.header.image_id := by
            have := (hvm.2 p hp).2
            rw [← hd'] at this
            exact this
          refine ⟨(q1, verInsert ((imgFind m q1).getD []) img.header.cur_img_ver img), ?_,
            (img.header.cur_img_ver, img), verInsert_self_mem _ _ _, ?_⟩
          · exact imgAdd_self_mem m q1 img.header.cur_img_ver img
          · rw [← hid, hpid]
        · refine ⟨(q1, verInsert ((imgFind m q1).getD []) img.header.cur_img_ver img),
            imgAdd_self_mem m q1 img.header.cur_img_ver img, p, ?_, hid⟩
          rw [hfind]
          simp only [Option.getD_some]
          exact verInsert_mem_of_ne hp hpk
      · exact ⟨(q1, q2), imgAdd_mem_of_ne hq hqi, p, hp, hid⟩
    · subst ht
      exact ⟨(i, verInsert ((imgFind m i).getD []) img.header.cur_img_ver img),
        imgAdd_self_mem m i img.header.cur_img_ver img,
        (img.header.cur_img_ver, img), verInsert_self_mem _ _ _, rfl⟩

theorem fimInv_step {m : ImgMap} {fim : Nat} {i dsc : String} {img : Image}
    (hwf : ImgMapWF m) (hfim : FimInv m fim)
    (htab : image_table i = some (dsc, img.header.image_id)) :
    FimInv (imgAdd m i img.header.cur_img_ver img)
      (fim ||| (1 <<< img.header.image_id)) := by
  intro t
  rw [Nat.testBit_lor, testBit_one_shift]
  rw [mapHasId_imgAdd hwf htab t, ← hfim t]
  simp

theorem rev_some_table {n : Nat} {nd : String × String}
    (h : rev_image_table n = some nd) :
    image_table nd.1 = some (nd.2, n) := by
  obtain ⟨x, d⟩ := nd
  exact (rev_image_table_eq_some h).2

theorem collect_stream_wf (s : List Nat) (m : ImgMap) (fim : Nat) :
    ∀ {m' : ImgMap} {fim' : Nat}, ImgMapWF m → FimInv m fim →
    collect_stream s m fim = .ok (m', fim') →
    ImgMapWF m' ∧ FimInv m' fim' := by
  induction s, m, fim using collect_stream.induct with
  | case1 s images fim hs =>
    intro m' fim' hwf hfim h
    rw [collect_stream_eq_nohdr hs] at h
    injection h with h1
    injection h1 with h2 h3
    subst h2 h3
    exact ⟨hwf, hfim⟩
  | case2 s images fim e hne hs =>
    intro m' fim' hwf hfim h
    rw [collect_stream_eq_err hs (fun hh => hne hh)] at h
    cases h
  | case3 s images fim img rest hs hrev =>
    intro m' fim' hwf hfim h
    rw [collect_stream_eq_ok hs] at h
    rw [hrev] at h
    cases h
  | case4 s images fim img rest hs nd hrev ih =>
    intro m' fim' hwf hfim h
    rw [collect_stream_eq_ok hs] at h
    rw [hrev] at h
    simp only at h
    have htab := rev_some_table hrev
    exact ih (imgAdd_wf hwf htab) (fimInv_step hwf hfim htab) h

theorem collect_streams_wf (infnt : List (List Nat)) :
    ∀ {m : ImgMap} {fim : Nat} {m' : ImgMap} {fim' : Nat},
    ImgMapWF m → FimInv m fim →
    collect_streams infnt m fim = .ok (m', fim') →
    ImgMapWF m' ∧ FimInv m' fim' := by
  induction infnt with
  | nil =>
    intro m fim m' fim' hwf hfim h
    unfold collect_streams at h
    injection h with h1
    injection h1 with h2 h3
    subst h2 h3
    exact ⟨hwf, hfim⟩
  | cons s rest ih =>
    intro m fim m' fim' hwf hfim h
    unfold collect_streams at h
    rcases hcs : collect_stream s m fim with e | ⟨m1, fim1⟩
    · rw [hcs] at h
      cases h
    · rw [hcs] at h
      simp only at h
      obtain ⟨hwf1, hfim1⟩ := collect_stream_wf s m fim hwf hfim hcs
      exact ih hwf1 hfim1 h

theorem set_from_file_ok_fields {fs : String → List Nat} {fn idver : String}
    {img : Image} (h : Image.set_from_file fs fn idver = .ok img) :
    ∃ d, image_table (resolve_idstr idver).1 = some d ∧
      img.header.image_id = d.2 ∧
      img.header.cur_img_ver = (resolve_idstr idver).2 ∧
      img.header.major = MAJOR_VER ∧ img.header.minor = MINOR_VER ∧
      img.header.next_img_ver = 0 ∧ img.header.following_images = 0 ∧
      img.header.image_len = img.bits.length := by
  unfold Image.set_from_file at h
  simp only at h
  rcases htab : image_table (resolve_idstr idver).1 with _ | d
  · rw [htab] at h
    cases h
  · rw [htab] at h
    injection h with h1
    refine ⟨d, rfl, ?_⟩
    rw [← h1]
    simp

theorem set_from_file_err {fs : String → List Nat} {fn idver : String}
    {e : MkFail} (h : Image.set_from_file fs fn idver = .error e) :
    e = .unknownImageType (resolve_idstr idver).1 ∧
      image_table (resolve_idstr idver).1 = none := by
  unfold Image.set_from_file at h
  simp only at h
  rcases htab : image_table (resolve_idstr idver).1 with _ | d
  · rw [htab] at h
    injection h with h1
    exact ⟨h1.symm, rfl⟩
  · rw [htab] at h
    cases h

/-- Invariants preserved by the command-line collection loop: map WF, the
bitmap invariant, no duplicate names in the first-appearance order, every
map key listed in the order, order extension, and order keys present as
map keys. -/
theorem collect_cmdline_wf (fs : String → List Nat)
    (tuples : List (String × String)) :
    ∀ {m : ImgMap} {order : List String} {fim : Nat} {m' : ImgMap}
      {order' : List String} {fim' : Nat},
    ImgMapWF m → FimInv m fim → order.Nodup → (∀ q ∈ m, q.1 ∈ order) →
    (∀ i ∈ order, i ∈ m.map (fun q => q.1)) →
    collect_cmdline fs tuples m order fim = .ok (m', order', fim') →
    ImgMapWF m' ∧ FimInv m' fim' ∧ order'.Nodup ∧
      (∀ q ∈ m', q.1 ∈ order') ∧ (∀ i ∈ order, i ∈ order') ∧
      (∀ i ∈ order', i ∈ m'.map (fun q => q.1)) := by
  induction tuples with
  | nil =>
    intro m order fim m' order' fim' hwf hfim hnd hcov hkeys h
    unfold collect_cmdline at h
    injection h with h1
    injection h1 with h2 h3
    injection h3 with h4 h5
    subst h2 h4 h5
    exact ⟨hwf, hfim, hnd, hcov, fun i hi => hi, hkeys⟩
  | cons tp rest ih =>
    intro m order fim m' order' fim' hwf hfim hnd hcov hkeys h
    obtain ⟨idver, fn⟩ := tp
    unfold collect_cmdline at h
    rcases hsf : Image.set_from_file fs fn idver with e | img
    · rw [hsf] at h
      cases h
    · rw [hsf] at h
      simp only at h
      rcases hrev : rev_image_table img.header.image_id with _ | nd
      · rw [hrev] at h
        cases h
      · rw [hrev] at h
        simp only at h
        have htab := rev_some_table hrev
        have hwf2 := imgAdd_wf hwf htab
        have hfim2 := fimInv_step hwf hfim htab
        have hkey2 : nd.1 ∈ (imgAdd m nd.1 img.header.cur_img_ver img).map
            (fun q => q.1) := by
          rw [imgAdd_keys]
          split_ifs with hmem
          · exact hmem
          · simp
        have hkeysmono : ∀ j, j ∈ m.map (fun q => q.1) →
            j ∈ (imgAdd m nd.1 img.header.cur_img_ver img).map (fun q => q.1) := by
          intro j hj
          rw [imgAdd_keys]
          split_ifs with hmem
          · exact hj
          · simp only [List.mem_append]
            exact Or.inl hj
        by_cases hord : nd.1 ∈ order
        · rw [if_pos hord] at h
          refine ih hwf2 hfim2 hnd ?_ ?_ h
          · intro q hq
            rcases imgAdd_mem hq with ⟨h1, _⟩ | hq2
            · rw [h1]
              exact hord
            · exact hcov q hq2
          · intro i hi
            exact hkeysmono i (hkeys i hi)
        · rw [if_neg hord] at h
          have hnd2 : (order ++ [nd.1]).Nodup := by
            simp [List.nodup_append, hnd, hord]
          have hcov2 : ∀ q ∈ imgAdd m nd.1 img.header.cur_img_ver img,
              q.1 ∈ order ++ [nd.1] := by
            intro q hq
            rcases imgAdd_mem hq with ⟨h1, _⟩ | hq2
            · rw [h1]
              simp
            · simp only [List.mem_append]
              exact Or.inl (hcov q hq2)
          have hkeys2 : ∀ i ∈ order ++ [nd.1],
              i ∈ (imgAdd m nd.1 img.header.cur_img_ver img).map
                (fun q => q.1) := by
            intro i hi
            simp only [List.mem_append, List.mem_singleton] at hi
            rcases hi with hi | hi
            · exact hkeysmono i (hkeys i hi)
            · rw [hi]
              exact hkey2
          obtain ⟨a1, a2, a3, a4, a5, a6⟩ := ih hwf2 hfim2 hnd2 hcov2 hkeys2 h
          refine ⟨a1, a2, a3, a4, ?_, a6⟩
          intro i hi
          exact a5 i (by simp only [List.mem_append]; exact Or.inl hi)

/-! ## Merged maps and version-sorted runs -/

theorem verUpdate_wf {base overlay : VerMap} {n : Nat} (hwf : VerMapWF base n)
    (hov : ∀ p ∈ overlay, p.2.header.cur_img_ver = p.1 ∧
      p.2.header.image_id = n) : VerMapWF (verUpdate base overlay) n := by
  refine ⟨verUpdate_keys_nodup hwf.1, ?_⟩
  intro p hp
  rcases verUpdate_mem hp with h | h
  · exact hwf.2 p h
  · exact hov p h

theorem merged_of_wf {inf cmd : ImgMap} {i : String} {d : String × Nat}
    (hwfI : ImgMapWF inf) (hwfC : ImgMapWF cmd)
    (htab : image_table i = some d) :
    VerMapWF (merged_of inf cmd i) d.2 := by
  unfold merged_of
  have hbase : VerMapWF ([] : VerMap) d.2 := ⟨by simp [verKeys], by simp⟩
  have step1 : VerMapWF (match imgFind inf i with
      | some vm => verUpdate [] vm
      | none => ([] : VerMap)) d.2 := by
    rcases hfind : imgFind inf i with _ | vm
    · exact hbase
    · obtain ⟨d2, hd2, hvm⟩ := hwfI.2 _ (imgFind_mem hfind)
      simp only at hd2
      rw [htab] at hd2
      injection hd2 with hd2'
      refine verUpdate_wf hbase ?_
      intro p hp
      have := hvm.2 p hp
      rw [← hd2'] at this
      exact this
  rcases hfind : imgFind cmd i with _ | vm
  · exact step1
  · obtain ⟨d2, hd2, hvm⟩ := hwfC.2 _ (imgFind_mem hfind)
    simp only at hd2
    rw [htab] at hd2
    injection hd2 with hd2'
    refine verUpdate_wf step1 ?_
    intro p hp
    have := hvm.2 p hp
    rw [← hd2'] at this
    exact this

theorem merged_of_none {inf cmd : ImgMap} {i : String}
    (hwfI : ImgMapWF inf) (hwfC : ImgMapWF cmd)
    (htab : image_table i = none) : merged_of inf cmd i = [] := by
  unfold merged_of
  have hfI : imgFind inf i = none := by
    rcases hfind : imgFind inf i with _ | vm
    · rfl
    · obtain ⟨d2, hd2, _⟩ := hwfI.2 _ (imgFind_mem hfind)
      simp only at hd2
      rw [htab] at hd2
      cases hd2
  have hfC : imgFind cmd i = none := by
    rcases hfind : imgFind cmd i with _ | vm
    · rfl
    · obtain ⟨d2, hd2, _⟩ := hwfC.2 _ (imgFind_mem hfind)
      simp only at hd2
      rw [htab] at hd2
      cases hd2
  rw [hfI, hfC]

theorem merged_of_mem {inf cmd : ImgMap} {i : String} {p : Nat × Image}
    (h : p ∈ merged_of inf cmd i) :
    (∃ vm, imgFind inf i = some vm ∧ p ∈ vm) ∨
    (∃ vm, imgFind cmd i = some vm ∧ p ∈ vm) := by
  unfold merged_of at h
  rcases hfC : imgFind cmd i with _ | vmC <;> rw [hfC] at h
  · rcases hfI : imgFind inf i with _ | vmI <;> rw [hfI] at h
    · cases h
    · rcases verUpdate_mem h with h | h
      · cases h
      · exact Or.inl ⟨vmI, rfl, h⟩
  · rcases verUpdate_mem h with h | h
    · rcases hfI : imgFind inf i with _ | vmI <;> rw [hfI] at h
      · cases h
      · rcases verUpdate_mem h with h | h
        · cases h
        · exact Or.inl ⟨vmI, rfl, h⟩
    · exact Or.inr ⟨vmC, rfl, h⟩

theorem merged_of_ne_nil_inf {inf cmd : ImgMap} {i : String} {vm : VerMap}
    (h : imgFind inf i = some vm) (hne : vm ≠ []) :
    merged_of inf cmd i ≠ [] := by
  unfold merged_of
  rw [h]
  rcases hfC : imgFind cmd i with _ | vmC
  · exact verUpdate_ne_nil (Or.inr hne)
  · exact verUpdate_ne_nil (Or.inl (verUpdate_ne_nil (Or.inr hne)))

theorem merged_of_ne_nil_cmd {inf cmd : ImgMap} {i : String} {vm : VerMap}
    (h : imgFind cmd i = some vm) (hne : vm ≠ []) :
    merged_of inf cmd i ≠ [] := by
  unfold merged_of
  rw [h]
  exact verUpdate_ne_nil (Or.inr hne)

theorem merged_of_get_cmd {inf cmd : ImgMap} {i : String} {vmC : VerMap}
    {v : Nat} {imgB : Image} (hfindC : imgFind cmd i = some vmC)
    (hnd : (verKeys vmC).Nodup) (hget : verGet vmC v = some imgB) :
    verGet (merged_of inf cmd i) v = some imgB := by
  unfold merged_of
  rw [hfindC]
  exact verUpdate_get_some hnd hget

theorem sortNat_perm (l : List Nat) : List.Perm (sortNat l) l :=
  List.perm_insertionSort _ l

theorem sortNat_sorted (l : List Nat) : List.Sorted (· ≤ ·) (sortNat l) :=
  List.sorted_insertionSort _ l

theorem filterMap_length_all_some {α β : Type} {f : α → Option β}
    {l : List α} (h : ∀ a ∈ l, ∃ b, f a = some b) :
    (l.filterMap f).length = l.length := by
  induction l with
  | nil => rfl
  | cons a rest ih =>
    obtain ⟨b, hb⟩ := h a (List.mem_cons_self _ _)
    rw [List.filterMap_cons_some hb]
    simp only [List.length_cons]
    rw [ih (fun x hx => h x (List.mem_cons_of_mem _ hx))]

theorem run_of_mem_iff {vm : VerMap} {n : Nat} (hwf : VerMapWF vm n)
    {img : Image} : img ∈ run_of vm ↔ ∃ k, (k, img) ∈ vm := by
  unfold run_of
  rw [List.mem_filterMap]
  constructor
  · rintro ⟨k, _, hget⟩
    exact ⟨k, verGet_mem hget⟩
  · rintro ⟨k, hmem⟩
    refine ⟨k, ?_, verGet_of_mem hwf.1 hmem⟩
    have : k ∈ verKeys vm := List.mem_map_of_mem (fun p => p.1) hmem
    exact (sortNat_perm (verKeys vm)).mem_iff.mpr this

theorem run_of_all_some {vm : VerMap} {n : Nat} (hwf : VerMapWF vm n) :
    ∀ k ∈ sortNat (verKeys vm), ∃ img, verGet vm k = some img := by
  intro k hk
  have hk2 : k ∈ verKeys vm := (sortNat_perm (verKeys vm)).mem_iff.mp hk
  obtain ⟨p, hp, hp1⟩ := List.mem_map.mp hk2
  obtain ⟨p1, p2⟩ := p
  simp only at hp1
  subst hp1
  exact ⟨p2, verGet_of_mem hwf.1 hp⟩

theorem run_of_length {vm : VerMap} {n : Nat} (hwf : VerMapWF vm n) :
    (run_of vm).length = vm.length := by
  unfold run_of
  rw [filterMap_length_all_some (run_of_all_some hwf)]
  rw [(sortNat_perm (verKeys vm)).length_eq]
  simp [verKeys]

theorem run_of_ne_nil {vm : VerMap} {n : Nat} (hwf : VerMapWF vm n)
    (hne : vm ≠ []) : run_of vm ≠ [] := by
  intro h
  have := run_of_length hwf
  rw [h] at this
  simp only [List.length_nil] at this
  exact hne (List.length_eq_zero.mp this.symm)

theorem run_of_ids {vm : VerMap} {n : Nat} (hwf : VerMapWF vm n) :
    ∀ r ∈ run_of vm, r.header.image_id = n := by
  intro r hr
  obtain ⟨k, hk⟩ := (run_of_mem_iff hwf).mp hr
  exact (hwf.2 _ hk).2

theorem run_of_chain {vm : VerMap} {n : Nat} (hwf : VerMapWF vm n) :
    List.Chain' (fun a b : Image =>
      a.header.cur_img_ver < b.header.cur_img_ver) (run_of vm) := by
  unfold run_of
  apply List.Pairwise.chain'
  rw [List.pairwise_filterMap]
  have hnd : (sortNat (verKeys vm)).Nodup :=
    (sortNat_perm (verKeys vm)).nodup_iff.mpr hwf.1
  have hsorted : List.Pairwise (· < ·) (sortNat (verKeys vm)) :=
    List.Sorted.lt_of_le (sortNat_sorted (verKeys vm)) hnd
  refine hsorted.imp_of_mem ?_
  intro k1 k2 h1 h2 hlt img1 hg1 img2 hg2
  have hc1 : img1.header.cur_img_ver = k1 := (hwf.2 _ (verGet_mem hg1)).1
  have hc2 : img2.header.cur_img_ver = k2 := (hwf.2 _ (verGet_mem hg2)).1
  rw [hc1, hc2]
  exact hlt

theorem filter_cur_filterMap {vm : VerMap} {n : Nat} (hwf : VerMapWF vm n)
    {v : Nat} {imgB : Image} (hget : verGet vm v = some imgB) :
    ∀ ks : List Nat, ks.Nodup →
      (ks.filterMap (verGet vm)).filter
        (fun r => r.header.cur_img_ver == v) =
      if v ∈ ks then [imgB] else [] := by
  intro ks
  induction ks with
  | nil => intro _; simp
  | cons k rest ih =>
    intro hnd
    simp only [List.nodup_cons] at hnd
    by_cases hkv : k = v
    · subst hkv
      rw [List.filterMap_cons_some hget, List.filter_cons]
      have hcur : imgB.header.cur_img_ver = k :=
        (hwf.2 _ (verGet_mem hget)).1
      rw [if_pos (by simp [hcur])]
      rw [ih hnd.2, if_neg hnd.1, if_pos (List.mem_cons_self _ _)]
    · have hnotmem : v ∉ rest → v ∉ k :: rest := by
        intro hv
        simp only [List.mem_cons, not_or]
        exact ⟨fun h => hkv h.symm, hv⟩
      rcases hg : verGet vm k with _ | imgk
      · rw [List.filterMap_cons_none hg, ih hnd.2]
        by_cases hv : v ∈ rest
        · rw [if_pos hv, if_pos (List.mem_cons_of_mem _ hv)]
        · rw [if_neg hv, if_neg (hnotmem hv)]
      · rw [List.filterMap_cons_some hg, List.filter_cons]
        have hcurk : imgk.header.cur_img_ver = k :=
          (hwf.2 _ (verGet_mem hg)).1
        rw [if_neg (by simp [hcurk, hkv])]
        rw [ih hnd.2]
        by_cases hv : v ∈ rest
        · rw [if_pos hv, if_pos (List.mem_cons_of_mem _ hv)]
        · rw [if_neg hv, if_neg (hnotmem hv)]

theorem run_of_filter_cur {vm : VerMap} {n : Nat} (hwf : VerMapWF vm n)
    {v : Nat} {imgB : Image} (hget : verGet vm v = some imgB) :
    (run_of vm).filter (fun r => r.header.cur_img_ver == v) = [imgB] := by
  unfold run_of
  rw [filter_cur_filterMap hwf hget (sortNat (verKeys vm))
    ((sortNat_perm (verKeys vm)).nodup_iff.mpr hwf.1)]
  rw [if_pos]
  apply (sortNat_perm (verKeys vm)).mem_iff.mpr
  exact List.mem_map_of_mem (fun p => p.1) (verGet_mem hget)

/-! ## The emission loop -/

theorem stamp_image_header (img : Image) (nxt fim : Nat) :
    (stamp_image img nxt fim).header =
      ⟨img.header.major, MINOR_VER, img.header.image_id, nxt,
       img.header.cur_img_ver, img.header.image_len, img.header.image_crc,
       fim⟩ := rfl

theorem stamp_image_bits (img : Image) (nxt fim : Nat) :
    (stamp_image img nxt fim).bits = img.bits := rfl

theorem emit_run_map {α : Type} (g : Image → α)
    (hg : ∀ img nxt fim, g (stamp_image img nxt fim) = g img) :
    ∀ (run : List Image) (fim : Nat),
      ((emit_run run fim).1).map g = run.map g := by
  intro run
  induction run with
  | nil => intro fim; rfl
  | cons img rest ih =>
    intro fim
    cases rest with
    | nil => simp [emit_run, hg]
    | cons nxt rest2 =>
      simp only [emit_run, List.map_cons, hg]
      rw [ih fim, List.map_cons]

theorem emit_run_length (run : List Image) (fim : Nat) :
    (emit_run run fim).1.length = run.length := by
  have := emit_run_map (fun _ => (0 : Nat)) (fun _ _ _ => rfl) run fim
  have h1 := congrArg List.length this
  simpa using h1

theorem emit_run_minor : ∀ (run : List Image) (fim : Nat),
    ∀ r ∈ (emit_run run fim).1, r.header.minor = MINOR_VER := by
  intro run
  induction run with
  | nil => intro fim r hr; cases hr
  | cons img rest ih =>
    intro fim r hr
    cases rest with
    | nil =>
      simp only [emit_run, List.mem_singleton] at hr
      rw [hr]
      rfl
    | cons nxt rest2 =>
      simp only [emit_run, List.mem_cons] at hr
      rcases hr with hr | hr
      · rw [hr]
        rfl
      · exact ih fim r hr

theorem emit_run_origin : ∀ (run : List Image) (fim : Nat),
    ∀ r ∈ (emit_run run fim).1, ∃ c ∈ run, ∃ nv f, r = stamp_image c nv f := by
  intro run
  induction run with
  | nil => intro fim r hr; cases hr
  | cons img rest ih =>
    intro fim r hr
    cases rest with
    | nil =>
      simp only [emit_run, List.mem_singleton] at hr
      exact ⟨img, List.mem_cons_self _ _, _, _, hr⟩
    | cons nxt rest2 =>
      simp only [emit_run, List.mem_cons] at hr
      rcases hr with hr | hr
      · exact ⟨img, List.mem_cons_self _ _, _, _, hr⟩
      · obtain ⟨c, hc, nv, f, hr⟩ := ih fim r hr
        exact ⟨c, List.mem_cons_of_mem _ hc, nv, f, hr⟩

theorem emit_run_fim : ∀ (run : List Image) (fim n : Nat), run ≠ [] →
    (∀ r ∈ run, r.header.image_id = n) →
    (emit_run run fim).2 = Nat.ldiff fim (1 <<< n) := by
  intro run
  induction run with
  | nil => intro fim n hne _; exact absurd rfl hne
  | cons img rest ih =>
    intro fim n _ huni
    cases rest with
    | nil =>
      simp only [emit_run]
      rw [huni img (List.mem_cons_self _ _), clear_bit_eq_ldiff]
    | cons nxt rest2 =>
      simp only [emit_run]
      exact ih fim n (by simp) (fun r hr => huni r (List.mem_cons_of_mem _ hr))

theorem emit_run_head : ∀ (img : Image) (rest : List Image) (fim : Nat),
    ∃ y ys, (emit_run (img :: rest) fim).1 = y :: ys ∧
      y.header.cur_img_ver = img.header.cur_img_ver := by
  intro img rest fim
  cases rest with
  | nil => exact ⟨_, _, rfl, rfl⟩
  | cons nxt rest2 => exact ⟨_, _, rfl, rfl⟩

theorem emit_run_following : ∀ (run : List Image) (fim n : Nat),
    (∀ r ∈ run, r.header.image_id = n) →
    ∀ (pre : List Image) (r : Image) (post : List Image),
      (emit_run run fim).1 = pre ++ r :: post →
      (post = [] ∧ r.header.following_images = Nat.ldiff fim (1 <<< n)) ∨
      (post ≠ [] ∧ r.header.following_images = fim) := by
  intro run
  induction run with
  | nil =>
    intro fim n _ pre r post h
    have hlen := congrArg List.length h
    simp only [emit_run, List.length_append, List.length_cons,
      List.length_nil] at hlen
    omega
  | cons img rest ih =>
    intro fim n huni pre r post h
    cases rest with
    | nil =>
      simp only [emit_run] at h
      cases pre with
      | nil =>
        simp only [List.nil_append, List.cons.injEq] at h
        refine Or.inl ⟨h.2.symm, ?_⟩
        rw [← h.1, stamp_image_header]
        simp only
        rw [huni img (List.mem_cons_self _ _), clear_bit_eq_ldiff]
      | cons x pre2 =>
        simp only [List.cons_append, List.cons.injEq] at h
        have hlen := congrArg List.length h.2
        simp only [List.length_append, List.length_cons,
          List.length_nil] at hlen
        omega
    | cons nxt rest2 =>
      simp only [emit_run] at h
      cases pre with
      | nil =>
        simp only [List.nil_append, List.cons.injEq] at h
        refine Or.inr ⟨?_, ?_⟩
        · intro hpost
          rw [hpost] at h
          have := congrArg List.length h.2
          rw [emit_run_length] at this
          simp at this
        · rw [← h.1, stamp_image_header]
      | cons x pre2 =>
        simp only [List.cons_append, List.cons.injEq] at h
        exact ih fim n (fun q hq => huni q (List.mem_cons_of_mem _ hq))
          pre2 r post h.2

/-- The spec-side version-chaining predicate: records strictly ascending
in `cur_img_ver`, each pointing at the next one's version, the last
pointing at 0. -/
def chainOk : List Image → Bool
  | [] => true
  | [r] => r.header.next_img_ver == 0
  | r :: r2 :: rest =>
    decide (r.header.cur_img_ver < r2.header.cur_img_ver) &&
    (r.header.next_img_ver == r2.header.cur_img_ver) && chainOk (r2 :: rest)

theorem emit_run_chainOk : ∀ (run : List Image) (fim : Nat),
    List.Chain' (fun a b : Image =>
      a.header.cur_img_ver < b.header.cur_img_ver) run →
    chainOk (emit_run run fim).1 = true := by
  intro run
  induction run with
  | nil => intro fim _; rfl
  | cons img rest ih =>
    intro fim hch
    cases rest with
    | nil => rfl
    | cons nxt rest2 =>
      obtain ⟨y, ys, hys, hycur⟩ := emit_run_head nxt rest2 fim
      simp only [emit_run, hys]
      show (decide _ && _ && _) = true
      simp only [Bool.and_eq_true, decide_eq_true_eq, beq_iff_eq]
      refine ⟨⟨?_, ?_⟩, ?_⟩
      · rw [stamp_image_header]
        simp only
        rw [hycur]
        exact (List.chain'_cons.mp hch).1
      · rw [stamp_image_header]
        simp only
        rw [hycur]
      · rw [← hys]
        exact ih fim (List.chain'_cons.mp hch).2

/-! ## Structural facts about `emit_all` -/

/-- The numeric id the table assigns to a symbolic name (0 if absent;
only used where the name is known to be present). -/
def idOf (i : String) : Nat := ((image_table i).map (fun d => d.2)).getD 0

theorem emit_run_exists_id (run : List Image) (fim : Nat) (t : Nat) :
    (∃ r ∈ (emit_run run fim).1, r.header.image_id = t) ↔
    ∃ r ∈ run, r.header.image_id = t := by
  have hmap := emit_run_map (fun r => r.header.image_id)
    (fun _ _ _ => rfl) run fim
  constructor
  · rintro ⟨r, hr, hid⟩
    have : t ∈ run.map (fun r => r.header.image_id) := by
      rw [← hmap]
      rw [List.mem_map]
      exact ⟨r, hr, hid⟩
    obtain ⟨r2, hr2, hid2⟩ := List.mem_map.mp this
    exact ⟨r2, hr2, hid2⟩
  · rintro ⟨r, hr, hid⟩
    have : t ∈ ((emit_run run fim).1).map (fun r => r.header.image_id) := by
      rw [hmap, List.mem_map]
      exact ⟨r, hr, hid⟩
    obtain ⟨r2, hr2, hid2⟩ := List.mem_map.mp this
    exact ⟨r2, hr2, hid2⟩

theorem run_of_nil : run_of ([] : VerMap) = [] := rfl

theorem no_dup_id_in_rest {inf cmd : ImgMap} (hwfI : ImgMapWF inf)
    (hwfC : ImgMapWF cmd) {i0 : String} {d : String × Nat}
    (htab0 : image_table i0 = some d) {rest : List String}
    (hnotin : i0 ∉ rest) :
    ¬ ∃ i ∈ rest, ∃ r ∈ run_of (merged_of inf cmd i),
      r.header.image_id = d.2 := by
  rintro ⟨i, hi, r, hr, hid⟩
  rcases htab : image_table i with _ | d'
  · rw [merged_of_none hwfI hwfC htab, run_of_nil] at hr
    cases hr
  · have hid' := run_of_ids (merged_of_wf hwfI hwfC htab) r hr
    have hne : i ≠ i0 := fun hh => hnotin (hh ▸ hi)
    have := image_table_inj htab htab0 hne
    rw [hid'] at hid
    exact this hid

theorem run_exists_id_iff {inf cmd : ImgMap} (hwfI : ImgMapWF inf)
    (hwfC : ImgMapWF cmd) {i0 : String} {d : String × Nat}
    (htab0 : image_table i0 = some d)
    (hne : merged_of inf cmd i0 ≠ []) (t : Nat) :
    (∃ r ∈ run_of (merged_of inf cmd i0), r.header.image_id = t) ↔
      t = d.2 := by
  constructor
  · rintro ⟨r, hr, hid⟩
    rw [← hid]
    exact run_of_ids (merged_of_wf hwfI hwfC htab0) r hr
  · rintro rfl
    obtain ⟨r, hr⟩ := List.exists_mem_of_ne_nil _
      (run_of_ne_nil (merged_of_wf hwfI hwfC htab0) hne)
    exact ⟨r, hr, run_of_ids (merged_of_wf hwfI hwfC htab0) r hr⟩

theorem emit_all_map_id (order : List String) :
    ∀ (inf cmd : ImgMap) (fim : Nat), ImgMapWF inf → ImgMapWF cmd →
    (emit_all order inf cmd fim).map (fun r => r.header.image_id) =
      order.flatMap (fun i =>
        List.replicate (merged_of inf cmd i).length (idOf i)) := by
  induction order with
  | nil => intro inf cmd fim _ _; rfl
  | cons i rest ih =>
    intro inf cmd fim hwfI hwfC
    rw [List.flatMap_cons]
    unfold emit_all
    dsimp only
    split_ifs with hlen
    · rw [hlen]
      simp only [List.replicate_zero, List.nil_append]
      exact ih inf cmd fim hwfI hwfC
    · simp only [List.map_append]
      rw [ih inf cmd _ hwfI hwfC]
      congr 1
      have hnonnil : merged_of inf cmd i ≠ [] := by
        intro hh
        rw [hh] at hlen
        exact hlen rfl
      rcases htab : image_table i with _ | d
      · exact absurd (merged_of_none hwfI hwfC htab) hnonnil
      · have hwfm := merged_of_wf hwfI hwfC htab
        have hmap := emit_run_map (fun r => r.header.image_id)
          (fun _ _ _ => rfl) (run_of (merged_of inf cmd i)) fim
        rw [hmap]
        have hids := run_of_ids hwfm
        have hidof : idOf i = d.2 := by
          unfold idOf
          rw [htab]
          rfl
        rw [List.eq_replicate_iff]
        refine ⟨?_, ?_⟩
        · rw [List.length_map, run_of_length hwfm]
        · intro b hb
          obtain ⟨r, hr, hrb⟩ := List.mem_map.mp hb
          rw [← hrb, hidof]
          exact hids r hr

theorem emit_all_exists_id (order : List String) :
    ∀ (inf cmd : ImgMap) (fim : Nat) (t : Nat),
    (∃ r ∈ emit_all order inf cmd fim, r.header.image_id = t) ↔
      ∃ i ∈ order, ∃ r ∈ run_of (merged_of inf cmd i),
        r.header.image_id = t := by
  induction order with
  | nil =>
    intro inf cmd fim t
    simp [emit_all]
  | cons i rest ih =>
    intro inf cmd fim t
    unfold emit_all
    dsimp only
    split_ifs with hlen
    · rw [ih]
      constructor
      · rintro ⟨j, hj, hr⟩
        exact ⟨j, List.mem_cons_of_mem _ hj, hr⟩
      · rintro ⟨j, hj, r, hr, hid⟩
        rcases List.mem_cons.mp hj with hj | hj
        · subst hj
          rw [List.length_eq_zero.mp hlen, run_of_nil] at hr
          cases hr
        · exact ⟨j, hj, r, hr, hid⟩
    · constructor
      · rintro ⟨r, hr, hid⟩
        rcases List.mem_append.mp hr with hr | hr
        · obtain ⟨r2, hr2, hid2⟩ := (emit_run_exists_id _ _ t).mp ⟨r, hr, hid⟩
          exact ⟨i, List.mem_cons_self _ _, r2, hr2, hid2⟩
        · obtain ⟨j, hj, r2, hr2, hid2⟩ := (ih inf cmd _ t).mp ⟨r, hr, hid⟩
          exact ⟨j, List.mem_cons_of_mem _ hj, r2, hr2, hid2⟩
      · rintro ⟨j, hj, r, hr, hid⟩
        rcases List.mem_cons.mp hj with hj | hj
        · subst hj
          obtain ⟨r2, hr2, hid2⟩ := (emit_run_exists_id _ fim t).mpr ⟨r, hr, hid⟩
          exact ⟨r2, List.mem_append.mpr (Or.inl hr2), hid2⟩
        · obtain ⟨r2, hr2, hid2⟩ := (ih inf cmd _ t).mpr ⟨j, hj, r, hr, hid⟩
          exact ⟨r2, List.mem_append.mpr (Or.inr hr2), hid2⟩

theorem emit_all_following (order : List String) :
    ∀ (inf cmd : ImgMap) (fim : Nat), ImgMapWF inf → ImgMapWF cmd →
    order.Nodup →
    (∀ t, fim.testBit t = true ↔
      ∃ i ∈ order, ∃ r ∈ run_of (merged_of inf cmd i),
        r.header.image_id = t) →
    ∀ (pre : List Image) (r : Image) (post : List Image),
      emit_all order inf cmd fim = pre ++ r :: post →
      ∀ t, r.header.following_images.testBit t = true ↔
        ∃ r2 ∈ post, r2.header.image_id = t := by
  induction order with
  | nil =>
    intro inf cmd fim _ _ _ _ pre r post h t
    have hlen := congrArg List.length h
    simp only [emit_all, List.length_nil, List.length_append,
      List.length_cons] at hlen
    omega
  | cons i rest ih =>
    intro inf cmd fim hwfI hwfC hnd hfim pre r post h t
    simp only [List.nodup_cons] at hnd
    unfold emit_all at h
    dsimp only at h
    split_ifs at h with hlen
    · refine ih inf cmd fim hwfI hwfC hnd.2 ?_ pre r post h t
      intro t'
      rw [hfim t']
      constructor
      · rintro ⟨j, hj, rr, hrr, hid⟩
        rcases List.mem_cons.mp hj with hj | hj
        · subst hj
          rw [List.length_eq_zero.mp hlen, run_of_nil] at hrr
          cases hrr
        · exact ⟨j, hj, rr, hrr, hid⟩
      · rintro ⟨j, hj, rr, hrr, hid⟩
        exact ⟨j, List.mem_cons_of_mem _ hj, rr, hrr, hid⟩
    · have hnonnil : merged_of inf cmd i ≠ [] := fun hh => hlen (by rw [hh]; rfl)
      rcases htab : image_table i with _ | d
      · exact absurd (merged_of_none hwfI hwfC htab) hnonnil
      have hwfm := merged_of_wf hwfI hwfC htab
      have hrun_ids := run_of_ids hwfm
      have hrun_ne := run_of_ne_nil hwfm hnonnil
      have huni_out : ∀ rr ∈ (emit_run (run_of (merged_of inf cmd i)) fim).1,
          rr.header.image_id = d.2 := by
        intro rr hrr
        obtain ⟨c, hc, nv, f, hrr⟩ := emit_run_origin _ _ rr hrr
        rw [hrr]
        exact hrun_ids c hc
      have hfim2 : (emit_run (run_of (merged_of inf cmd i)) fim).2 =
          Nat.ldiff fim (1 <<< d.2) := emit_run_fim _ _ _ hrun_ne hrun_ids
      have hnodup_id := no_dup_id_in_rest hwfI hwfC htab hnd.1
      have hfimrest : ∀ t', (Nat.ldiff fim (1 <<< d.2)).testBit t' = true ↔
          ∃ j ∈ rest, ∃ rr ∈ run_of (merged_of inf cmd j),
            rr.header.image_id = t' := by
        intro t'
        rw [Nat.testBit_ldiff, testBit_one_shift]
        rw [Bool.and_eq_true]
        rw [hfim t']
        constructor
        · rintro ⟨⟨j, hj, rr, hrr, hid⟩, hne⟩
          have hne' : t' ≠ d.2 := by
            intro hh
            rw [hh] at hne
            simp at hne
          rcases List.mem_cons.mp hj with hj | hj
          · subst hj
            exact absurd ((run_exists_id_iff hwfI hwfC htab hnonnil t').mp
              ⟨rr, hrr, hid⟩) hne'
          · exact ⟨j, hj, rr, hrr, hid⟩
        · rintro ⟨j, hj, rr, hrr, hid⟩
          refine ⟨⟨j, List.mem_cons_of_mem _ hj, rr, hrr, hid⟩, ?_⟩
          have hne' : t' ≠ d.2 := by
            intro hh
            exact hnodup_id ⟨j, hj, rr, hrr, hh ▸ hid⟩
          simp [hne']
      rw [hfim2] at h
      rcases List.append_eq_append_iff.mp h with ⟨a', ha1, ha2⟩ | ⟨c', hc1, hc2⟩
      · exact ih inf cmd _ hwfI hwfC hnd.2 hfimrest a' r post ha2 t
      · cases c' with
        | nil =>
          simp only [List.nil_append] at hc2
          exact ih inf cmd _ hwfI hwfC hnd.2 hfimrest [] r post hc2.symm t
        | cons y c2 =>
          simp only [List.cons_append, List.cons.injEq] at hc2
          obtain ⟨hyr, hpost⟩ := hc2
          subst hyr
          rcases emit_run_following _ fim d.2 hrun_ids pre r c2 hc1 with
            ⟨hc2nil, hfol⟩ | ⟨hc2ne, hfol⟩
          · subst hc2nil
            simp only [List.nil_append] at hpost
            subst hpost
            rw [hfol, hfimrest t]
            rw [← emit_all_exists_id rest inf cmd (Nat.ldiff fim (1 <<< d.2)) t]
          · subst hpost
            rw [hfol, hfim t]
            constructor
            · rintro ⟨j, hj, rr, hrr, hid⟩
              rcases List.mem_cons.mp hj with hj | hj
              · rw [hj] at hrr
                have ht : t = d.2 :=
                  (run_exists_id_iff hwfI hwfC htab hnonnil t).mp ⟨rr, hrr, hid⟩
                obtain ⟨r2, hr2⟩ := List.exists_mem_of_ne_nil _ hc2ne
                refine ⟨r2, List.mem_append.mpr (Or.inl hr2), ?_⟩
                have hr2' : r2 ∈ (emit_run (run_of (merged_of inf cmd i)) fim).1 := by
                  rw [hc1]
                  exact List.mem_append.mpr (Or.inr (List.mem_cons_of_mem _ hr2))
                rw [huni_out r2 hr2', ht]
              · obtain ⟨r2, hr2, hid2⟩ :=
                  (emit_all_exists_id rest inf cmd _ t).mpr ⟨j, hj, rr, hrr, hid⟩
                exact ⟨r2, List.mem_append.mpr (Or.inr hr2), hid2⟩
            · rintro ⟨r2, hr2, hid2⟩
              rcases List.mem_append.mp hr2 with hr2 | hr2
              · have hr2' : r2 ∈ (emit_run (run_of (merged_of inf cmd i)) fim).1 := by
                  rw [hc1]
                  exact List.mem_append.mpr (Or.inr (List.mem_cons_of_mem _ hr2))
                have ht : t = d.2 := by
                  rw [← hid2, huni_out r2 hr2']
                refine ⟨i, List.mem_cons_self _ _, ?_⟩
                exact (run_exists_id_iff hwfI hwfC htab hnonnil t).mpr ht
              · obtain ⟨j, hj, rr, hrr, hid⟩ :=
                  (emit_all_exists_id rest inf cmd _ t).mp ⟨r2, hr2, hid2⟩
                exact ⟨j, List.mem_cons_of_mem _ hj, rr, hrr, hid⟩

/-! ## Bridges from the collection phases to the emission loop -/

theorem image_table_some_mem {x : String} {d : String × Nat}
    (h : image_table x = some d) : x ∈ image_list.map (fun e => e.1) := by
  obtain ⟨d1, d2⟩ := d
  have := (image_table_eq_some h).1
  exact List.mem_map.mpr ⟨(x, d1, d2), this, rfl⟩

theorem imgMapWF_nil : ImgMapWF [] := ⟨List.nodup_nil, by simp⟩

theorem fimInv_nil : FimInv [] 0 := by
  intro t
  simp [mapHasId, Nat.zero_testBit]

/-- The bitmap invariant through the command-line loop, relative to an
arbitrary predicate `P` describing the bits already set on entry. -/
theorem collect_cmdline_fim (fs : String → List Nat)
    (tuples : List (String × String)) (P : Nat → Prop) :
    ∀ {m : ImgMap} {order : List String} {fim : Nat} {m' : ImgMap}
      {order' : List String} {fim' : Nat},
    ImgMapWF m →
    (∀ t, fim.testBit t = true ↔ (P t ∨ mapHasId m t)) →
    collect_cmdline fs tuples m order fim = .ok (m', order', fim') →
    ∀ t, fim'.testBit t = true ↔ (P t ∨ mapHasId m' t) := by
  induction tuples with
  | nil =>
    intro m order fim m' order' fim' _ hinv h
    unfold collect_cmdline at h
    injection h with h1
    injection h1 with h2 h3
    injection h3 with h4 h5
    subst h2 h5
    exact hinv
  | cons tp rest ih =>
    intro m order fim m' order' fim' hwf hinv h
    obtain ⟨idver, fn⟩ := tp
    unfold collect_cmdline at h
    rcases hsf : Image.set_from_file fs fn idver with e | img
    · rw [hsf] at h
      cases h
    · rw [hsf] at h
      simp only at h
      rcases hrev : rev_image_table img.header.image_id with _ | nd
      · rw [hrev] at h
        cases h
      · rw [hrev] at h
        simp only at h
        have htab := rev_some_table hrev
        refine ih (imgAdd_wf hwf htab) ?_ h
        intro t
        rw [Nat.testBit_lor, testBit_one_shift, Bool.or_eq_true,
          decide_eq_true_eq]
        rw [hinv t, mapHasId_imgAdd hwf htab t]
        tauto

/-- The resulting maps and order of the command-line loop do not depend
on the incoming bitmap. -/
theorem collect_cmdline_indep (fs : String → List Nat)
    (tuples : List (String × String)) :
    ∀ {m : ImgMap} {order : List String} {fim : Nat} {m' : ImgMap}
      {order' : List String} {fim' : Nat},
    collect_cmdline fs tuples m order fim = .ok (m', order', fim') →
    ∀ fim0, ∃ fim0',
      collect_cmdline fs tuples m order fim0 = .ok (m', order', fim0') := by
  induction tuples with
  | nil =>
    intro m order fim m' order' fim' h fim0
    unfold collect_cmdline at h
    injection h with h1
    injection h1 with h2 h3
    injection h3 with h4 h5
    subst h2 h4
    exact ⟨fim0, rfl⟩
  | cons tp rest ih =>
    intro m order fim m' order' fim' h fim0
    obtain ⟨idver, fn⟩ := tp
    unfold collect_cmdline at h
    rcases hsf : Image.set_from_file fs fn idver with e | img
    · rw [hsf] at h
      cases h
    · rw [hsf] at h
      simp only at h
      rcases hrev : rev_image_table img.header.image_id with _ | nd
      · rw [hrev] at h
        cases h
      · rw [hrev] at h
        simp only at h
        obtain ⟨f0', h0⟩ := ih h (fim0 ||| (1 <<< img.header.image_id))
        refine ⟨f0', ?_⟩
        unfold collect_cmdline
        rw [hsf]
        simp only
        rw [hrev]
        exact h0

/-- Every tuple the command-line loop consumed built successfully. -/
theorem collect_cmdline_ok_all (fs : String → List Nat)
    (tuples : List (String × String)) :
    ∀ {m : ImgMap} {order : List String} {fim : Nat} {m' : ImgMap}
      {order' : List String} {fim' : Nat},
    collect_cmdline fs tuples m order fim = .ok (m', order', fim') →
    ∀ tp ∈ tuples, ∃ img, Image.set_from_file fs tp.2 tp.1 = .ok img := by
  induction tuples with
  | nil =>
    intro m order fim m' order' fim' _ tp htp
    cases htp
  | cons tp0 rest ih =>
    intro m order fim m' order' fim' h tp htp
    obtain ⟨idver, fn⟩ := tp0
    unfold collect_cmdline at h
    rcases hsf : Image.set_from_file fs fn idver with e | img
    · rw [hsf] at h
      cases h
    · rw [hsf] at h
      simp only at h
      rcases hrev : rev_image_table img.header.image_id with _ | nd
      · rw [hrev] at h
        cases h
      · rw [hrev] at h
        simp only at h
        rcases List.mem_cons.mp htp with htp | htp
        · subst htp
          exact ⟨img, hsf⟩
        · exact ih h tp htp

/-- The first-appearance dedup of a name list, with a seed accumulator:
the shape `cmdline_image_order` takes in the source. -/
def first_order_from (acc : List String) (l : List String) : List String :=
  l.foldl (fun a n => if n ∈ a then a else a ++ [n]) acc

/-- The order the command-line loop records is the first-appearance order
of the resolved type names of the tuples. -/
theorem collect_cmdline_order (fs : String → List Nat)
    (tuples : List (String × String)) :
    ∀ {m : ImgMap} {order : List String} {fim : Nat} {m' : ImgMap}
      {order' : List String} {fim' : Nat},
    collect_cmdline fs tuples m order fim = .ok (m', order', fim') →
    order' = first_order_from order
      (tuples.map (fun tp => (resolve_idstr tp.1).1)) := by
  induction tuples with
  | nil =>
    intro m order fim m' order' fim' h
    unfold collect_cmdline at h
    injection h with h1
    injection h1 with h2 h3
    injection h3 with h4 h5
    subst h4
    rfl
  | cons tp0 rest ih =>
    intro m order fim m' order' fim' h
    obtain ⟨idver, fn⟩ := tp0
    unfold collect_cmdline at h
    rcases hsf : Image.set_from_file fs fn idver with e | img
    · rw [hsf] at h
      cases h
    · rw [hsf] at h
      simp only at h
      rcases hrev : rev_image_table img.header.image_id with _ | nd
      · rw [hrev] at h
        cases h
      · rw [hrev] at h
        simp only at h
        obtain ⟨d, htab, hid, _⟩ := set_from_file_ok_fields hsf
        have htab' : image_table (resolve_idstr idver).1 = some (d.1, d.2) :=
          htab
        have hrev' : rev_image_table d.2 =
            some ((resolve_idstr idver).1, d.1) :=
          (image_table_eq_some htab').2
        rw [hid] at hrev
        rw [hrev'] at hrev
        injection hrev with hnd
        have hnd1 : nd.1 = (resolve_idstr idver).1 := by
          rw [← hnd]
        rw [ih h, hnd1]
        rfl

/-- When the emission order covers the names of both maps, the combined
bitmap is exactly "some record of this id is still to be emitted". -/
theorem fim_char_of_coverage {inf cmd : ImgMap} (hwfI : ImgMapWF inf)
    (hwfC : ImgMapWF cmd) {order : List String}
    (hcovI : ∀ q ∈ inf, q.1 ∈ order) (hcovC : ∀ q ∈ cmd, q.1 ∈ order)
    {fim : Nat}
    (hfim : ∀ t, fim.testBit t = true ↔ (mapHasId inf t ∨ mapHasId cmd t)) :
    ∀ t, fim.testBit t = true ↔
      ∃ i ∈ order, ∃ r ∈ run_of (merged_of inf cmd i),
        r.header.image_id = t := by
  intro t
  rw [hfim t]
  constructor
  · rintro (⟨q, hq, p, hp, hid⟩ | ⟨q, hq, p, hp, hid⟩)
    · obtain ⟨d, hd, hvm⟩ := hwfI.2 _ hq
      have hqfind : imgFind inf q.1 = some q.2 := imgFind_of_mem hwfI.1 hq
      have hne : merged_of inf cmd q.1 ≠ [] :=
        merged_of_ne_nil_inf hqfind (fun hh => by rw [hh] at hp; cases hp)
      have ht : t = d.2 := by
        rw [← hid]
        exact (hvm.2 p hp).2
      exact ⟨q.1, hcovI q hq,
        (run_exists_id_iff hwfI hwfC hd hne t).mpr ht⟩
    · obtain ⟨d, hd, hvm⟩ := hwfC.2 _ hq
      have hqfind : imgFind cmd q.1 = some q.2 := imgFind_of_mem hwfC.1 hq
      have hne : merged_of inf cmd q.1 ≠ [] :=
        merged_of_ne_nil_cmd hqfind (fun hh => by rw [hh] at hp; cases hp)
      have ht : t = d.2 := by
        rw [← hid]
        exact (hvm.2 p hp).2
      exact ⟨q.1, hcovC q hq,
        (run_exists_id_iff hwfI hwfC hd hne t).mpr ht⟩
  · rintro ⟨i, hi, r, hr, hid⟩
    obtain ⟨k, _, hget⟩ := List.mem_filterMap.mp hr
    have hmem : (k, r) ∈ merged_of inf cmd i := verGet_mem hget
    rcases merged_of_mem hmem with ⟨vm, hfind, hvm⟩ | ⟨vm, hfind, hvm⟩
    · exact Or.inl ⟨(i, vm), imgFind_mem hfind, (k, r), hvm, hid⟩
    · exact Or.inr ⟨(i, vm), imgFind_mem hfind, (k, r), hvm, hid⟩

/-- Every emitted record is the stamping of a record of one of the
version-sorted runs. -/
theorem emit_all_origin (order : List String) :
    ∀ (inf cmd : ImgMap) (fim : Nat) (r : Image),
    r ∈ emit_all order inf cmd fim →
    ∃ i ∈ order, ∃ c ∈ run_of (merged_of inf cmd i), ∃ nv f,
      r = stamp_image c nv f := by
  induction order with
  | nil => intro inf cmd fim r hr; cases hr
  | cons i rest ih =>
    intro inf cmd fim r hr
    unfold emit_all at hr
    dsimp only at hr
    split_ifs at hr with hlen
    · obtain ⟨j, hj, hrest⟩ := ih inf cmd fim r hr
      exact ⟨j, List.mem_cons_of_mem _ hj, hrest⟩
    · rcases List.mem_append.mp hr with hr | hr
      · obtain ⟨c, hc, nv, f, hrf⟩ := emit_run_origin _ fim r hr
        exact ⟨i, List.mem_cons_self _ _, c, hc, nv, f, hrf⟩
      · obtain ⟨j, hj, hrest⟩ := ih inf cmd _ r hr
        exact ⟨j, List.mem_cons_of_mem _ hj, hrest⟩

theorem filterMap_map_cur {vm : VerMap} {n : Nat} (hwf : VerMapWF vm n) :
    ∀ ks : List Nat, (∀ k ∈ ks, ∃ img, verGet vm k = some img) →
      (ks.filterMap (verGet vm)).map (fun r => r.header.cur_img_ver) = ks := by
  intro ks
  induction ks with
  | nil => intro _; rfl
  | cons k rest ih =>
    intro hall
    obtain ⟨img, himg⟩ := hall k (List.mem_cons_self _ _)
    rw [List.filterMap_cons_some himg, List.map_cons]
    rw [(hwf.2 _ (verGet_mem himg)).1]
    rw [ih (fun x hx => hall x (List.mem_cons_of_mem _ hx))]

/-- The versions of a run, in emission order, are the sorted keys. -/
theorem run_of_map_cur {vm : VerMap} {n : Nat} (hwf : VerMapWF vm n) :
    (run_of vm).map (fun r => r.header.cur_img_ver) =
      sortNat (verKeys vm) := by
  unfold run_of
  exact filterMap_map_cur hwf _ (run_of_all_some hwf)

/-- Filtering the whole output by one type's numeric id recovers exactly
that type's emitted run (for some intermediate bitmap). -/
theorem emit_all_filter_id (order : List String) :
    ∀ (inf cmd : ImgMap) (fim : Nat), ImgMapWF inf → ImgMapWF cmd →
    order.Nodup → ∀ {i0 : String} {d : String × Nat}, i0 ∈ order →
    image_table i0 = some d →
    ∃ f0, (emit_all order inf cmd fim).filter
        (fun r => r.header.image_id == d.2) =
      (emit_run (run_of (merged_of inf cmd i0)) f0).1 := by
  induction order with
  | nil =>
    intro inf cmd fim _ _ _ i0 d hmem _
    cases hmem
  | cons i rest ih =>
    intro inf cmd fim hwfI hwfC hnd i0 d hmem htab0
    simp only [List.nodup_cons] at hnd
    have hfilter_rest : ∀ fimx, i0 ∉ rest →
        (emit_all rest inf cmd fimx).filter
          (fun r => r.header.image_id == d.2) = [] := by
      intro fimx hni
      rw [List.filter_eq_nil_iff]
      intro r hr
      simp only [beq_iff_eq]
      intro hid
      exact no_dup_id_in_rest hwfI hwfC htab0 hni
        ((emit_all_exists_id rest inf cmd fimx d.2).mp ⟨r, hr, hid⟩)
    unfold emit_all
    dsimp only
    split_ifs with hlen
    · rcases List.mem_cons.mp hmem with hmem | hmem
      · subst hmem
        refine ⟨fim, ?_⟩
        rw [List.length_eq_zero.mp hlen, run_of_nil]
        show _ = ([] : List Image)
        exact hfilter_rest fim hnd.1
      · exact ih inf cmd fim hwfI hwfC hnd.2 hmem htab0
    · have hnonnil : merged_of inf cmd i ≠ [] := by
        intro hh
        rw [hh] at hlen
        exact hlen rfl
      rcases htab : image_table i with _ | d'
      · exact absurd (merged_of_none hwfI hwfC htab) hnonnil
      have hwfm := merged_of_wf hwfI hwfC htab
      rcases List.mem_cons.mp hmem with hmem | hmem
      · subst hmem
        rw [htab0] at htab
        injection htab with htab
        subst htab
        refine ⟨fim, ?_⟩
        rw [List.filter_append]
        rw [List.filter_eq_self.mpr ?keep]
        case keep =>
          intro r hr
          obtain ⟨c, hc, nv, f, hrf⟩ := emit_run_origin _ fim r hr
          simp only [beq_iff_eq]
          rw [hrf]
          exact run_of_ids hwfm c hc
        rw [hfilter_rest _ hnd.1, List.append_nil]
      · have hne : i ≠ i0 := fun hh => hnd.1 (hh ▸ hmem)
        have hid_ne := image_table_inj htab htab0 hne
        rw [List.filter_append]
        rw [List.filter_eq_nil_iff.mpr ?first]
        case first =>
          intro r hr
          obtain ⟨c, hc, nv, f, hrf⟩ := emit_run_origin _ fim r hr
          simp only [beq_iff_eq]
          rw [hrf]
          have := run_of_ids hwfm c hc
          rw [show (stamp_image c nv f).header.image_id =
            c.header.image_id from rfl, this]
          exact hid_ne
        rw [List.nil_append]
        exact ih inf cmd _ hwfI hwfC hnd.2 hmem htab0

/-- Inverting a successful `make_stream` into its two collection phases
and the emission call. -/
theorem make_stream_ok {infnt : List (List Nat)} {fs : String → List Nat}
    {tuples : List (String × String)} {expert : Bool} {out : List Image}
    (h : make_stream infnt fs tuples expert = .ok out) :
    ∃ inf fim1 cmd cord fim,
      collect_streams infnt [] 0 = .ok (inf, fim1) ∧
      collect_cmdline fs tuples [] [] fim1 = .ok (cmd, cord, fim) ∧
      out = emit_all (if expert then cord else image_list.map (fun e => e.1))
        inf cmd fim := by
  unfold make_stream at h
  rcases h1 : collect_streams infnt [] 0 with e | ⟨inf, fim1⟩
  · rw [h1] at h
    cases h
  · rw [h1] at h
    simp only at h
    rcases h2 : collect_cmdline fs tuples [] [] fim1 with e | ⟨cmd, cord, fim⟩
    · rw [h2] at h
      cases h
    · rw [h2] at h
      simp only at h
      injection h with h3
      exact ⟨inf, fim1, cmd, cord, fim, rfl, h2, h3.symm⟩

/-- The facts the emission-phase lemmas need, derived from the two
collection phases of `make_stream`. -/
theorem make_stream_env {infnt : List (List Nat)} {fs : String → List Nat}
    {tuples : List (String × String)} {inf : ImgMap} {fim1 : Nat}
    {cmd : ImgMap} {cord : List String} {fim : Nat}
    (h1 : collect_streams infnt [] 0 = .ok (inf, fim1))
    (h2 : collect_cmdline fs tuples [] [] fim1 = .ok (cmd, cord, fim)) :
    ImgMapWF inf ∧ ImgMapWF cmd ∧ cord.Nodup ∧ (∀ q ∈ cmd, q.1 ∈ cord) ∧
      (∀ t, fim.testBit t = true ↔ (mapHasId inf t ∨ mapHasId cmd t)) := by
  obtain ⟨hwfI, hfimI⟩ := collect_streams_wf infnt imgMapWF_nil fimInv_nil h1
  obtain ⟨f0', h20⟩ := collect_cmdline_indep fs tuples h2 0
  obtain ⟨hwfC, _, hndC, hcovC, _, _⟩ := collect_cmdline_wf fs tuples
    imgMapWF_nil fimInv_nil List.nodup_nil
    (fun q hq => absurd hq (List.not_mem_nil q))
    (fun i hi => absurd hi (List.not_mem_nil i)) h20
  refine ⟨hwfI, hwfC, hndC, hcovC, ?_⟩
  refine collect_cmdline_fim fs tuples (mapHasId inf) imgMapWF_nil ?_ h2
  intro t
  constructor
  · intro hb
    exact Or.inl ((hfimI t).mp hb)
  · rintro (hm | hm)
    · exact (hfimI t).mpr hm
    · obtain ⟨q, hq, _⟩ := hm
      cases hq

/-- Both maps' names lie in the full table order. -/
theorem coverage_default {m : ImgMap} (hwf : ImgMapWF m) :
    ∀ q ∈ m, q.1 ∈ image_list.map (fun e => e.1) := by
  intro q hq
  obtain ⟨d, hd, _⟩ := hwf.2 _ hq
  exact image_table_some_mem hd

/-- If a fully readable stream holds an image whose numeric id the
reverse table cannot resolve, the collection loop dies with a `KeyError`
from the reverse lookup. -/
theorem collect_stream_keyerr (s : List Nat) (m0 : ImgMap) (f0 : Nat) :
    ∀ {imgs : List Image}, readStream s = .ok imgs →
    ∀ {img : Image}, img ∈ imgs →
    rev_image_table img.header.image_id = none →
    ∀ (m : ImgMap) (fim : Nat), ∃ t, rev_image_table t = none ∧
      collect_stream s m fim = .error (.keyErrorRev t) := by
  induction s, m0, f0 using collect_stream.induct with
  | case1 s images fim hs =>
    intro imgs hr img hmem _ m f
    rw [readStream_eq_nohdr hs] at hr
    injection hr with h1
    subst h1
    cases hmem
  | case2 s images fim e hne hs =>
    intro imgs hr img hmem _ m f
    rw [readStream_eq_err hs (fun hh => hne hh)] at hr
    cases hr
  | case3 s images fim img0 rest hs hrev =>
    intro imgs hr img hmem hnone m f
    exact ⟨img0.header.image_id, hrev,
      by rw [collect_stream_eq_ok hs, hrev]⟩
  | case4 s images fim img0 rest hs nd hrev ih =>
    intro imgs hr img hmem hnone m f
    rw [readStream_eq_ok hs] at hr
    rcases hrr : readStream rest with e | imgs'
    · rw [hrr] at hr
      cases hr
    · rw [hrr] at hr
      simp only at hr
      injection hr with h1
      subst h1
      rcases List.mem_cons.mp hmem with hmem | hmem
      · rw [hmem, hrev] at hnone
        cases hnone
      · obtain ⟨t, ht, hcs⟩ := ih hrr hmem hnone
          (imgAdd m nd.1 img0.header.cur_img_ver img0)
          (f ||| (1 <<< img0.header.image_id))
        refine ⟨t, ht, ?_⟩
        rw [collect_stream_eq_ok hs, hrev]
        simp only
        exact hcs

/-- Rewriting a `make_stream` call through its two collection phases. -/
theorem make_stream_eq (expert : Bool) {infnt : List (List Nat)}
    {fs : String → List Nat} {tuples : List (String × String)} {inf : ImgMap}
    {fim1 : Nat} {cmd : ImgMap} {cord : List String} {fim : Nat}
    (h1 : collect_streams infnt [] 0 = .ok (inf, fim1))
    (h2 : collect_cmdline fs tuples [] [] fim1 = .ok (cmd, cord, fim)) :
    make_stream infnt fs tuples expert =
      .ok (emit_all (if expert then cord else image_list.map (fun e => e.1))
        inf cmd fim) := by
  unfold make_stream
  rw [h1]
  simp only
  rw [h2]

/-! ## Claim C4: the `following_images` bitmap -/

/-- A one-image input stream typed `psc-bl` (numeric id 36). -/
def cex4_stream : List Nat :=
  ImageHdr.get_bits ⟨1, 2, 36, 0, 0, 0, 0, 0⟩

/-- C4 counterexample: in expert mode with an input stream, the emitted
`bl2` record keeps the stale `psc-bl` bit (36) in `following_images` even
though no later record has image id 36 — the bitmap does not equal the
set of ids still pending. -/
theorem C4_counterexample :
    ∃ r, make_stream [cex4_stream] (fun _ => []) [("bl2", "f")] true =
        .ok [r] ∧
      r.header.following_images.testBit 36 = true ∧
      ¬ ∃ r2 ∈ ([] : List Image), r2.header.image_id = 36 := by
  refine ⟨⟨⟨1, 2, 1, 0, 0, 0, 0, 68719476736⟩, []⟩, ?_, by decide, by simp⟩
  have hs1 : Image.set_from_stream cex4_stream =
      .ok (⟨⟨1, 2, 36, 0, 0, 0, 0, 0⟩, []⟩, ([] : List Nat)) := by rfl
  have hc1 : collect_stream cex4_stream [] 0 =
      .ok ([("psc-bl", [(0, ⟨⟨1, 2, 36, 0, 0, 0, 0, 0⟩, []⟩)])], 1 <<< 36) := by
    rw [collect_stream_eq_ok hs1]
    exact collect_stream_eq_nohdr rfl
  have hcss : collect_streams [cex4_stream] [] 0 =
      .ok ([("psc-bl", [(0, ⟨⟨1, 2, 36, 0, 0, 0, 0, 0⟩, []⟩)])], 1 <<< 36) := by
    unfold collect_streams
    rw [hc1]
    rfl
  have hcl : collect_cmdline (fun _ => ([] : List Nat)) [("bl2", "f")] [] []
      (1 <<< 36) =
      .ok ([("bl2", [(0, ⟨⟨1, 2, 1, 0, 0, 0, 0, 0⟩, []⟩)])], ["bl2"],
        (1 <<< 36) ||| (1 <<< 1)) := by rfl
  rw [make_stream_eq true hcss hcl]
  rfl

/-- C4 (amended): in default mode, or in expert mode with no input
streams, every record `make_stream` emits has `following_images` equal to
the bitmap of numeric image-type ids that still have at least one record
emitted after it. -/
theorem C4_following_bitmap (infnt : List (List Nat)) (fs : String → List Nat)
    (tuples : List (String × String)) (expert : Bool) (out : List Image)
    (hmode : expert = false ∨ infnt = [])
    (h : make_stream infnt fs tuples expert = .ok out) :
    ∀ (pre : List Image) (r : Image) (post : List Image),
      out = pre ++ r :: post →
      ∀ t, r.header.following_images.testBit t = true ↔
        ∃ r2 ∈ post, r2.header.image_id = t := by
  obtain ⟨inf, fim1, cmd, cord, fim, h1, h2, hout⟩ := make_stream_ok h
  obtain ⟨hwfI, hwfC, hndC, hcovC, hfim⟩ := make_stream_env h1 h2
  intro pre r post hdec t
  rw [hout] at hdec
  rcases hmode with hexp | hinf
  · subst hexp
    rw [if_neg Bool.false_ne_true] at hdec
    exact emit_all_following _ inf cmd fim hwfI hwfC image_list_names_nodup
      (fim_char_of_coverage hwfI hwfC (coverage_default hwfI)
        (coverage_default hwfC) hfim) pre r post hdec t
  · subst hinf
    have hnil : inf = [] ∧ fim1 = 0 := by
      unfold collect_streams at h1
      injection h1 with h1'
      injection h1' with ha hb
      exact ⟨ha.symm, hb.symm⟩
    obtain ⟨ha, hb⟩ := hnil
    subst ha
    cases expert with
    | true =>
      rw [if_pos rfl] at hdec
      exact emit_all_following cord [] cmd fim imgMapWF_nil hwfC hndC
        (fim_char_of_coverage imgMapWF_nil hwfC
          (fun q hq => absurd hq (List.not_mem_nil q)) hcovC hfim)
        pre r post hdec t
    | false =>
      rw [if_neg Bool.false_ne_true] at hdec
      exact emit_all_following _ [] cmd fim imgMapWF_nil hwfC
        image_list_names_nodup
        (fim_char_of_coverage imgMapWF_nil hwfC
          (fun q hq => absurd hq (List.not_mem_nil q))
          (coverage_default hwfC) hfim) pre r post hdec t

/-- Witness for C4: a concrete default-mode run with one `bl2` source; the
single emitted record's bitmap bit 1 is clear, matching the empty set of
later records. -/
theorem C4_following_bitmap_witness :
    ∃ r, make_stream [] (fun _ => []) [("bl2", "g")] false = .ok [r] ∧
      (r.header.following_images.testBit 1 = true ↔
        ∃ r2 ∈ ([] : List Image), r2.header.image_id = 1) :=
  ⟨⟨⟨1, 2, 1, 0, 0, 0, 0, 0⟩, []⟩, rfl,
    C4_following_bitmap [] (fun _ => []) [("bl2", "g")] false _
      (Or.inl rfl) rfl [] _ [] rfl 1⟩

/-! ## Claim C3: version chaining -/

/-- C3: for every image type in the emission order, the records
`make_stream` emits for it appear in ascending version order — their
version list is exactly the type's merged version keys, sorted — and they
chain: each record's `next_img_ver` is the next record's version, the
last record's is 0 (`chainOk` also checks the strict ascent). -/
theorem C3_version_chaining (infnt : List (List Nat)) (fs : String → List Nat)
    (tuples : List (String × String)) (expert : Bool) (inf : ImgMap)
    (fim1 : Nat) (cmd : ImgMap) (cord : List String) (fim : Nat)
    (out : List Image)
    (h1 : collect_streams infnt [] 0 = .ok (inf, fim1))
    (h2 : collect_cmdline fs tuples [] [] fim1 = .ok (cmd, cord, fim))
    (h : make_stream infnt fs tuples expert = .ok out) :
    ∀ i ∈ (if expert then cord else image_list.map (fun e => e.1)),
      ∀ d, image_table i = some d →
      (out.filter (fun r => r.header.image_id == d.2)).map
          (fun r => r.header.cur_img_ver) =
        sortNat (verKeys (merged_of inf cmd i)) ∧
      chainOk (out.filter (fun r => r.header.image_id == d.2)) = true := by
  obtain ⟨hwfI, hwfC, hndC, _, _⟩ := make_stream_env h1 h2
  have hout : out = emit_all
      (if expert then cord else image_list.map (fun e => e.1)) inf cmd fim := by
    have hh := make_stream_eq expert h1 h2
    rw [h] at hh
    exact Except.ok.inj hh
  have hndO : (if expert then cord
      else image_list.map (fun e => e.1)).Nodup := by
    cases expert
    · rw [if_neg Bool.false_ne_true]
      exact image_list_names_nodup
    · rw [if_pos rfl]
      exact hndC
  intro i hmem d htab
  obtain ⟨f0, hfilt⟩ := emit_all_filter_id _ inf cmd fim hwfI hwfC hndO
    hmem htab
  rw [hout, hfilt]
  have hwfm := merged_of_wf hwfI hwfC htab
  constructor
  · rw [emit_run_map (fun r => r.header.cur_img_ver) (fun _ _ _ => rfl),
      run_of_map_cur hwfm]
  · exact emit_run_chainOk _ f0 (run_of_chain hwfm)

/-- Witness for C3: two `bl2` sources with versions 0 and 5; the emitted
`bl2` records carry versions `[0, 5]` and chain correctly. -/
theorem C3_version_chaining_witness :
    ∃ inf fim1 cmd cord fim out,
      collect_streams [] [] 0 = .ok (inf, fim1) ∧
      collect_cmdline (fun _ => ([] : List Nat)) [("bl2", "g"), ("bl2-v5", "g")]
        [] [] fim1 = .ok (cmd, cord, fim) ∧
      make_stream [] (fun _ => ([] : List Nat)) [("bl2", "g"), ("bl2-v5", "g")]
        false = .ok out ∧
      (out.filter (fun r => r.header.image_id ==
          (("Trusted Boot Firmware BL2 bin", 1) : String × Nat).2)).map
          (fun r => r.header.cur_img_ver) =
        sortNat (verKeys (merged_of inf cmd "bl2")) ∧
      chainOk (out.filter (fun r => r.header.image_id ==
          (("Trusted Boot Firmware BL2 bin", 1) : String × Nat).2)) = true := by
  refine ⟨_, _, _, _, _, _, rfl, rfl, rfl, ?_⟩
  exact C3_version_chaining [] (fun _ => ([] : List Nat))
    [("bl2", "g"), ("bl2-v5", "g")] false _ _ _ _ _ _ rfl rfl rfl
    "bl2" (by decide) ("Trusted Boot Firmware BL2 bin", 1) rfl

/-! ## Claim C5: emission order of image types -/

/-- C5: the sequence of emitted image ids is the order's names expanded
by their version counts — the fixed table order in default mode,
regardless of the command line; in expert mode the order in which each
distinct type was first named by a caller-supplied source. -/
theorem C5_emission_order (infnt : List (List Nat)) (fs : String → List Nat)
    (tuples : List (String × String)) (expert : Bool) (inf : ImgMap)
    (fim1 : Nat) (cmd : ImgMap) (cord : List String) (fim : Nat)
    (out : List Image)
    (h1 : collect_streams infnt [] 0 = .ok (inf, fim1))
    (h2 : collect_cmdline fs tuples [] [] fim1 = .ok (cmd, cord, fim))
    (h : make_stream infnt fs tuples expert = .ok out) :
    out.map (fun r => r.header.image_id) =
      (if expert then cord else image_list.map (fun e => e.1)).flatMap
        (fun i => List.replicate (merged_of inf cmd i).length (idOf i)) ∧
    cord = first_order_from []
      (tuples.map (fun tp => (resolve_idstr tp.1).1)) := by
  obtain ⟨hwfI, hwfC, _, _, _⟩ := make_stream_env h1 h2
  have hout : out = emit_all
      (if expert then cord else image_list.map (fun e => e.1)) inf cmd fim := by
    have hh := make_stream_eq expert h1 h2
    rw [h] at hh
    exact Except.ok.inj hh
  constructor
  · rw [hout]
    exact emit_all_map_id _ inf cmd fim hwfI hwfC
  · exact collect_cmdline_order fs tuples h2

/-- Witness for C5: expert mode with `bl31`, `bl2`, `bl31-v2` emits in
first-appearance order `bl31`, `bl2`. -/
theorem C5_emission_order_witness :
    ∃ inf fim1 cmd cord fim out,
      collect_streams [] [] 0 = .ok (inf, fim1) ∧
      collect_cmdline (fun _ => ([] : List Nat))
        [("bl31", "g"), ("bl2", "g"), ("bl31-v2", "g")] [] [] fim1 =
        .ok (cmd, cord, fim) ∧
      make_stream [] (fun _ => ([] : List Nat))
        [("bl31", "g"), ("bl2", "g"), ("bl31-v2", "g")] true = .ok out ∧
      (out.map (fun r => r.header.image_id) =
        cord.flatMap
          (fun i => List.replicate (merged_of inf cmd i).length (idOf i)) ∧
       cord = first_order_from []
        ([("bl31", "g"), ("bl2", "g"), ("bl31-v2", "g")].map
          (fun tp => (resolve_idstr tp.1).1))) := by
  refine ⟨_, _, _, _, _, _, rfl, rfl, rfl, ?_⟩
  have := C5_emission_order [] (fun _ => ([] : List Nat))
    [("bl31", "g"), ("bl2", "g"), ("bl31-v2", "g")] true _ _ _ _ _ _
    rfl rfl rfl
  exact this

/-! ## Claim C6: merge priority -/

/-- Stamping neither reorders records nor changes versions/payloads, so
filtering an emitted run by version and taking payloads matches the raw
run. -/
theorem emit_run_filter_cur_map_bits : ∀ (run : List Image) (f0 v : Nat),
    ((emit_run run f0).1.filter
        (fun r => r.header.cur_img_ver == v)).map (fun r => r.bits) =
    (run.filter (fun r => r.header.cur_img_ver == v)).map
      (fun r => r.bits) := by
  intro run
  induction run with
  | nil => intro f0 v; rfl
  | cons img rest ih =>
    intro f0 v
    cases rest with
    | nil =>
      show (([stamp_image img 0 (clear_bit f0 img.header.image_id)]).filter
          (fun r => r.header.cur_img_ver == v)).map (fun r => r.bits) =
        (([img]).filter (fun r => r.header.cur_img_ver == v)).map
          (fun r => r.bits)
      rw [List.filter_cons, List.filter_cons]
      rw [show (stamp_image img 0
        (clear_bit f0 img.header.image_id)).header.cur_img_ver =
        img.header.cur_img_ver from rfl]
      by_cases hv : (img.header.cur_img_ver == v) = true
      · rw [if_pos hv, if_pos hv]
        rfl
      · rw [if_neg hv, if_neg hv]
    | cons nxt rest2 =>
      show ((stamp_image img nxt.header.cur_img_ver f0 ::
          (emit_run (nxt :: rest2) f0).1).filter
          (fun r => r.header.cur_img_ver == v)).map (fun r => r.bits) =
        ((img :: nxt :: rest2).filter
          (fun r => r.header.cur_img_ver == v)).map (fun r => r.bits)
      rw [List.filter_cons, List.filter_cons]
      rw [show (stamp_image img
        nxt.header.cur_img_ver f0).header.cur_img_ver =
        img.header.cur_img_ver from rfl]
      by_cases hv : (img.header.cur_img_ver == v) = true
      · rw [if_pos hv, if_pos hv]
        simp only [List.map_cons]
        rw [ih f0 v]
        rfl
      · rw [if_neg hv, if_neg hv]
        exact ih f0 v

/-- C6: when the merged maps hold a caller-supplied record of type `i`
at version `v`, the output contains exactly one record of that type and
version, and its payload is the caller-supplied one (a same-version
input-stream record is replaced, not duplicated: command-line entries
overlay input-stream entries in the merge). -/
theorem C6_merge_priority (infnt : List (List Nat)) (fs : String → List Nat)
    (tuples : List (String × String)) (expert : Bool) (inf : ImgMap)
    (fim1 : Nat) (cmd : ImgMap) (cord : List String) (fim : Nat)
    (out : List Image) (i : String) (d : String × Nat) (vmC : VerMap)
    (v : Nat) (imgB : Image)
    (h1 : collect_streams infnt [] 0 = .ok (inf, fim1))
    (h2 : collect_cmdline fs tuples [] [] fim1 = .ok (cmd, cord, fim))
    (h : make_stream infnt fs tuples expert = .ok out)
    (hmem : i ∈ (if expert then cord else image_list.map (fun e => e.1)))
    (htab : image_table i = some d)
    (hfind : imgFind cmd i = some vmC)
    (hget : verGet vmC v = some imgB) :
    (out.filter (fun r => r.header.image_id == d.2 &&
        (r.header.cur_img_ver == v))).map (fun r => r.bits) =
      [imgB.bits] := by
  obtain ⟨hwfI, hwfC, hndC, _, _⟩ := make_stream_env h1 h2
  have hout : out = emit_all
      (if expert then cord else image_list.map (fun e => e.1)) inf cmd fim := by
    have hh := make_stream_eq expert h1 h2
    rw [h] at hh
    exact Except.ok.inj hh
  have hndO : (if expert then cord
      else image_list.map (fun e => e.1)).Nodup := by
    cases expert
    · rw [if_neg Bool.false_ne_true]
      exact image_list_names_nodup
    · rw [if_pos rfl]
      exact hndC
  have hwfm := merged_of_wf hwfI hwfC htab
  have hndK : (verKeys vmC).Nodup := by
    obtain ⟨d2, hd2, hvm⟩ := hwfC.2 _ (imgFind_mem hfind)
    exact hvm.1
  have hgetM : verGet (merged_of inf cmd i) v = some imgB :=
    merged_of_get_cmd hfind hndK hget
  obtain ⟨f0, hfilt⟩ := emit_all_filter_id _ inf cmd fim hwfI hwfC hndO
    hmem htab
  have hpred : (fun r : Image => r.header.image_id == d.2 &&
      (r.header.cur_img_ver == v)) =
      fun r => (r.header.cur_img_ver == v) && (r.header.image_id == d.2) := by
    funext r
    exact Bool.and_comm _ _
  rw [hout, hpred, ← List.filter_filter, hfilt,
    emit_run_filter_cur_map_bits, run_of_filter_cur hwfm hgetM]
  rfl

/-- Witness for C6: two `bl2` sources at the same version 0; the second
replaces the first and the single emitted `bl2` record carries its
payload `[5, 5]`. -/
theorem C6_merge_priority_witness :
    ∃ inf fim1 cmd cord fim out vmC imgB,
      collect_streams [] [] 0 = .ok (inf, fim1) ∧
      collect_cmdline (fun n => if n = "h" then [5, 5] else [9])
        [("bl2", "g"), ("bl2", "h")] [] [] fim1 = .ok (cmd, cord, fim) ∧
      make_stream [] (fun n => if n = "h" then [5, 5] else [9])
        [("bl2", "g"), ("bl2", "h")] false = .ok out ∧
      imgFind cmd "bl2" = some vmC ∧
      verGet vmC 0 = some imgB ∧
      imgB.bits = [5, 5] ∧
      (out.filter (fun r => r.header.image_id ==
          (("Trusted Boot Firmware BL2 bin", 1) : String × Nat).2 &&
          (r.header.cur_img_ver == 0))).map (fun r => r.bits) =
        [imgB.bits] := by
  refine ⟨_, _, _, _, _, _, _, _, rfl, rfl, rfl, rfl, rfl, rfl, ?_⟩
  exact C6_merge_priority [] (fun n => if n = "h" then [5, 5] else [9])
    [("bl2", "g"), ("bl2", "h")] false _ _ _ _ _ _ "bl2"
    ("Trusted Boot Firmware BL2 bin", 1) _ 0 _ rfl rfl rfl (by decide)
    rfl rfl rfl

/-! ## Claim C7: the assembler frame -/

/-- Every image recorded by the stream-collection loop was either already
in the starting map or parsed verbatim by `Image.set_from_stream`. -/
theorem collect_stream_src (s : List Nat) (m0 : ImgMap) (f0 : Nat) :
    ∀ {m' : ImgMap} {f' : Nat}, collect_stream s m0 f0 = .ok (m', f') →
    ∀ q ∈ m', ∀ p ∈ q.2,
      (∃ q0 ∈ m0, ∃ p0 ∈ q0.2, p0.2 = p.2) ∨
      ∃ s2 rest, Image.set_from_stream s2 = .ok (p.2, rest) := by
  induction s, m0, f0 using collect_stream.induct with
  | case1 s images fim hs =>
    intro m' f' h q hq p hp
    rw [collect_stream_eq_nohdr hs] at h
    injection h with h1
    injection h1 with h2 h3
    subst h2
    exact Or.inl ⟨q, hq, p, hp, rfl⟩
  | case2 s images fim e hne hs =>
    intro m' f' h q hq p hp
    rw [collect_stream_eq_err hs (fun hh => hne hh)] at h
    cases h
  | case3 s images fim img rest hs hrev =>
    intro m' f' h q hq p hp
    rw [collect_stream_eq_ok hs, hrev] at h
    cases h
  | case4 s images fim img rest hs nd hrev ih =>
    intro m' f' h q hq p hp
    rw [collect_stream_eq_ok hs, hrev] at h
    simp only at h
    rcases ih h q hq p hp with hold | hnew
    · obtain ⟨q0, hq0, p0, hp0, hpe⟩ := hold
      rcases imgAdd_mem hq0 with ⟨hq1, hq2⟩ | hq0m
      · rw [hq2] at hp0
        rcases verInsert_mem hp0 with hpi | hpm
        · rw [hpi] at hpe
          exact Or.inr ⟨s, rest, hpe ▸ hs⟩
        · rcases hfind : imgFind images nd.1 with _ | vm
          · rw [hfind] at hpm
            cases hpm
          · rw [hfind] at hpm
            simp only [Option.getD_some] at hpm
            exact Or.inl ⟨(nd.1, vm), imgFind_mem hfind, p0, hpm, hpe⟩
      · exact Or.inl ⟨q0, hq0m, p0, hp0, hpe⟩
    · exact Or.inr hnew

/-- Lifting `collect_stream_src` over all input streams. -/
theorem collect_streams_src (infnt : List (List Nat)) :
    ∀ {m : ImgMap} {fim : Nat} {m' : ImgMap} {f' : Nat},
    collect_streams infnt m fim = .ok (m', f') →
    ∀ q ∈ m', ∀ p ∈ q.2,
      (∃ q0 ∈ m, ∃ p0 ∈ q0.2, p0.2 = p.2) ∨
      ∃ s2 rest, Image.set_from_stream s2 = .ok (p.2, rest) := by
  induction infnt with
  | nil =>
    intro m fim m' f' h q hq p hp
    unfold collect_streams at h
    injection h with h1
    injection h1 with h2 h3
    subst h2
    exact Or.inl ⟨q, hq, p, hp, rfl⟩
  | cons s rest ih =>
    intro m fim m' f' h q hq p hp
    unfold collect_streams at h
    rcases hcs : collect_stream s m fim with e | ⟨m1, fim1⟩
    · rw [hcs] at h
      cases h
    · rw [hcs] at h
      simp only at h
      rcases ih h q hq p hp with hold | hnew
      · obtain ⟨q0, hq0, p0, hp0, hpe⟩ := hold
        rcases collect_stream_src s m fim hcs q0 hq0 p0 hp0 with hb | hparsed
        · obtain ⟨q1, hq1, p1, hp1, hpe1⟩ := hb
          exact Or.inl ⟨q1, hq1, p1, hp1, hpe1.trans hpe⟩
        · rw [hpe] at hparsed
          exact Or.inr hparsed
      · exact Or.inr hnew

/-- Every image the command-line loop records was already present or was
built by `Image.set_from_file` from one of the tuples. -/
theorem collect_cmdline_src (fs : String → List Nat)
    (tuples : List (String × String)) :
    ∀ {m : ImgMap} {order : List String} {fim : Nat} {m' : ImgMap}
      {order' : List String} {fim' : Nat},
    collect_cmdline fs tuples m order fim = .ok (m', order', fim') →
    ∀ q ∈ m', ∀ p ∈ q.2,
      (∃ q0 ∈ m, ∃ p0 ∈ q0.2, p0.2 = p.2) ∨
      ∃ tp ∈ tuples, Image.set_from_file fs tp.2 tp.1 = .ok p.2 := by
  induction tuples with
  | nil =>
    intro m order fim m' order' fim' h q hq p hp
    unfold collect_cmdline at h
    injection h with h1
    injection h1 with h2 h3
    subst h2
    exact Or.inl ⟨q, hq, p, hp, rfl⟩
  | cons tp0 rest ih =>
    intro m order fim m' order' fim' h q hq p hp
    obtain ⟨idver, fn⟩ := tp0
    unfold collect_cmdline at h
    rcases hsf : Image.set_from_file fs fn idver with e | img
    · rw [hsf] at h
      cases h
    · rw [hsf] at h
      simp only at h
      rcases hrev : rev_image_table img.header.image_id with _ | nd
      · rw [hrev] at h
        cases h
      · rw [hrev] at h
        simp only at h
        rcases ih h q hq p hp with hold | hnew
        · obtain ⟨q0, hq0, p0, hp0, hpe⟩ := hold
          rcases imgAdd_mem hq0 with ⟨hq1, hq2⟩ | hq0m
          · rw [hq2] at hp0
            rcases verInsert_mem hp0 with hpi | hpm
            · rw [hpi] at hpe
              exact Or.inr ⟨(idver, fn), List.mem_cons_self _ _, hpe ▸ hsf⟩
            · rcases hfind : imgFind m nd.1 with _ | vm
              · rw [hfind] at hpm
                cases hpm
              · rw [hfind] at hpm
                simp only [Option.getD_some] at hpm
                exact Or.inl ⟨(nd.1, vm), imgFind_mem hfind, p0, hpm, hpe⟩
          · exact Or.inl ⟨q0, hq0m, p0, hp0, hpe⟩
        · obtain ⟨tp, htp, hok⟩ := hnew
          exact Or.inr ⟨tp, List.mem_cons_of_mem _ htp, hok⟩

/-- C7: every emitted record has `minor = MINOR_VER` (2), and its other
header fields and payload — major, image_id, cur_img_ver, image_len,
image_crc, bits — are exactly those of an image parsed from an input
stream or constructed from a caller-supplied source; only `minor`,
`next_img_ver` and `following_images` are rewritten by the assembler. -/
theorem C7_frame (infnt : List (List Nat)) (fs : String → List Nat)
    (tuples : List (String × String)) (expert : Bool) (inf : ImgMap)
    (fim1 : Nat) (cmd : ImgMap) (cord : List String) (fim : Nat)
    (out : List Image)
    (h1 : collect_streams infnt [] 0 = .ok (inf, fim1))
    (h2 : collect_cmdline fs tuples [] [] fim1 = .ok (cmd, cord, fim))
    (h : make_stream infnt fs tuples expert = .ok out) :
    ∀ r ∈ out, r.header.minor = MINOR_VER ∧
      ∃ c, ((∃ s2 rest, Image.set_from_stream s2 = .ok (c, rest)) ∨
            (∃ tp ∈ tuples, Image.set_from_file fs tp.2 tp.1 = .ok c)) ∧
        r.header.major = c.header.major ∧
        r.header.image_id = c.header.image_id ∧
        r.header.cur_img_ver = c.header.cur_img_ver ∧
        r.header.image_len = c.header.image_len ∧
        r.header.image_crc = c.header.image_crc ∧
        r.bits = c.bits := by
  have hout : out = emit_all
      (if expert then cord else image_list.map (fun e => e.1)) inf cmd fim := by
    have hh := make_stream_eq expert h1 h2
    rw [h] at hh
    exact Except.ok.inj hh
  intro r hr
  rw [hout] at hr
  obtain ⟨i, hi, c, hc, nv, f, hrf⟩ := emit_all_origin _ inf cmd fim r hr
  obtain ⟨k, _, hget⟩ := List.mem_filterMap.mp hc
  have hk : (k, c) ∈ merged_of inf cmd i := verGet_mem hget
  have horigin : (∃ s2 rest, Image.set_from_stream s2 = .ok (c, rest)) ∨
      (∃ tp ∈ tuples, Image.set_from_file fs tp.2 tp.1 = .ok c) := by
    rcases merged_of_mem hk with ⟨vm, hfind, hvm⟩ | ⟨vm, hfind, hvm⟩
    · rcases collect_streams_src infnt h1 (i, vm) (imgFind_mem hfind)
        (k, c) hvm with hb | hparsed
      · obtain ⟨q0, hq0, _⟩ := hb
        cases hq0
      · exact Or.inl hparsed
    · rcases collect_cmdline_src fs tuples h2 (i, vm) (imgFind_mem hfind)
        (k, c) hvm with hb | hbuilt
      · obtain ⟨q0, hq0, _⟩ := hb
        cases hq0
      · exact Or.inr hbuilt
  subst hrf
  exact ⟨rfl, c, horigin, rfl, rfl, rfl, rfl, rfl, rfl⟩

/-- Witness for C7: the single emitted record of a one-source run frames
the constructed `bl2` image unchanged except for the stamped fields. -/
theorem C7_frame_witness :
    ∃ out r,
      make_stream [] (fun _ => ([] : List Nat)) [("bl2", "g")] false =
        .ok out ∧ out = [r] ∧
      (r.header.minor = MINOR_VER ∧
       ∃ c, ((∃ s2 rest, Image.set_from_stream s2 = .ok (c, rest)) ∨
             (∃ tp ∈ [("bl2", "g")],
               Image.set_from_file (fun _ => ([] : List Nat)) tp.2 tp.1 =
                 .ok c)) ∧
         r.header.major = c.header.major ∧
         r.header.image_id = c.header.image_id ∧
         r.header.cur_img_ver = c.header.cur_img_ver ∧
         r.header.image_len = c.header.image_len ∧
         r.header.image_crc = c.header.image_crc ∧
         r.bits = c.bits) := by
  refine ⟨_, ⟨⟨1, 2, 1, 0, 0, 0, 0, 0⟩, []⟩, rfl, rfl, ?_⟩
  exact C7_frame [] (fun _ => ([] : List Nat)) [("bl2", "g")] false
    _ _ _ _ _ _ rfl rfl rfl _ (List.mem_cons_self _ _)

/-! ## Claim C8: accepted headers and the image type table -/

/-- On every accepting path, the decoder stores the raw 8-bit id field. -/
theorem decode_words_ok_id {w0 w1 w2 : Nat} {h : ImageHdr}
    (hok : ImageHdr.decode_words w0 w1 w2 = .ok h) :
    h.image_id = (w0 >>> 56) &&& 0xFF := by
  unfold ImageHdr.decode_words at hok
  simp only at hok
  split_ifs at hok with h1 h2 h3 h4 h5
  · exact congrArg ImageHdr.image_id (Except.ok.inj hok).symm
  · exact congrArg ImageHdr.image_id (Except.ok.inj hok).symm

/-- C8 counterexample: a 24-byte header with `image_id = 0` passes every
decoder check, yet id 0 appears nowhere in the image type table (the
reverse lookup fails). -/
theorem C8_counterexample :
    ImageHdr.set_from_file
        (ImageHdr.get_bits ⟨1, 2, 0, 0, 0, 0, 0, 0⟩) =
      .ok (⟨1, 2, 0, 0, 0, 0, 0, 0⟩, []) ∧
    rev_image_table (0 : Nat) = none ∧
    (∀ e ∈ image_list, e.2.2 ≠ 0) := ⟨rfl, rfl, by decide⟩

/-- C8 (amended): acceptance by the header decoder only bounds the
decoded `image_id` to its 8-bit field; the decoder never consults the
image type table, so the id need not appear there. -/
theorem C8_accepted_id_range (s : List Nat) (hdr : ImageHdr)
    (rest : List Nat) (h : ImageHdr.set_from_file s = .ok (hdr, rest)) :
    hdr.image_id < 256 := by
  unfold ImageHdr.set_from_file at h
  simp only at h
  split_ifs at h with h1 h2
  rcases hdw : ImageHdr.decode_words (leList ((s.take ImageHdr.length).take 8))
      (leList (((s.take ImageHdr.length).drop 8).take 8))
      (leList (((s.take ImageHdr.length).drop 16).take 8)) with e | h'
  · rw [hdw] at h
    cases h
  · rw [hdw] at h
    injection h with h'
    injection h' with ha hb
    subst ha
    rw [decode_words_ok_id hdw]
    exact Nat.lt_succ_of_le (Nat.and_le_right)

/-- Witness for C8: a concrete accepted header with id 7. -/
theorem C8_accepted_id_range_witness :
    ImageHdr.set_from_file (ImageHdr.get_bits ⟨1, 2, 7, 0, 0, 0, 0, 0⟩) =
      .ok (⟨1, 2, 7, 0, 0, 0, 0, 0⟩, []) ∧
    (⟨1, 2, 7, 0, 0, 0, 0, 0⟩ : ImageHdr).image_id < 256 :=
  ⟨rfl, C8_accepted_id_range (ImageHdr.get_bits ⟨1, 2, 7, 0, 0, 0, 0, 0⟩)
    ⟨1, 2, 7, 0, 0, 0, 0, 0⟩ [] rfl⟩

/-! ## Claim C9: unknown caller-supplied type names -/

/-- The claim's side condition, following the spec's words: the string
ends in a `-vN` suffix with `N` a non-empty digit string. -/
def has_ver_suffix (s : String) : Bool :=
  decide ('-' ∈ s.data) &&
    (decide (1 < (rsplit_dash s.data).2.length) &&
     ((rsplit_dash s.data).2.head? == some 'v') &&
     ((rsplit_dash s.data).2.drop 1).all Char.isDigit)

/-- The claim's stripping operation, following the spec's words: remove
an optional `-vN` suffix. -/
def claim_strip (idstr : String) : String :=
  if has_ver_suffix idstr then ⟨(rsplit_dash idstr.data).1⟩ else idstr

/-- No image-type name in the table itself ends in a `-vN` suffix. -/
theorem no_table_name_has_ver_suffix :
    ∀ e ∈ image_list, has_ver_suffix e.1 = false := by decide

/-- If the claim-stripped name is unknown, the source's own resolution
keeps the string whole and the whole string is unknown too. -/
theorem resolve_of_strip_none {idstr : String}
    (hstrip : image_table (claim_strip idstr) = none) :
    (resolve_idstr idstr).1 = idstr ∧ image_table idstr = none := by
  unfold claim_strip at hstrip
  by_cases hs : has_ver_suffix idstr = true
  · rw [if_pos hs] at hstrip
    have hparts := hs
    unfold has_ver_suffix at hparts
    simp only [Bool.and_eq_true, decide_eq_true_eq, beq_iff_eq] at hparts
    obtain ⟨hdash, ⟨hlen, hhead⟩, hdig⟩ := hparts
    have htabid : image_table idstr = none := by
      rcases htab : image_table idstr with _ | d
      · rfl
      · obtain ⟨e, he, he1⟩ := List.mem_map.mp (image_table_some_mem htab)
        have hfalse := no_table_name_has_ver_suffix e he
        rw [he1] at hfalse
        rw [hs] at hfalse
        cases hfalse
    refine ⟨?_, htabid⟩
    unfold resolve_idstr
    rw [if_pos hdash, if_pos ⟨hlen, hhead, hdig⟩]
    rw [if_neg (by rw [hstrip]; simp)]
  · rw [if_neg hs] at hstrip
    refine ⟨?_, hstrip⟩
    unfold resolve_idstr
    by_cases hdash : '-' ∈ idstr.data
    · rw [if_pos hdash]
      rw [if_neg ?shape]
      case shape =>
        rintro ⟨hlen, hhead, hdig⟩
        refine hs ?_
        unfold has_ver_suffix
        simp only [Bool.and_eq_true, decide_eq_true_eq, beq_iff_eq]
        exact ⟨hdash, ⟨hlen, hhead⟩, hdig⟩
    · rw [if_neg hdash]

/-- C9: a caller-supplied source whose type name, after stripping an
optional `-vN` suffix, is not in the image type table makes
`Image.set_from_file` fail with `UnknownImageType`, and a `make_stream`
given such a tuple never returns an output record list (every failure
precedes writing). -/
theorem C9_unknown_type (fs : String → List Nat) (infnt : List (List Nat))
    (tuples : List (String × String)) (expert : Bool) (fn idstr : String)
    (hmem : (idstr, fn) ∈ tuples)
    (hstrip : image_table (claim_strip idstr) = none) :
    Image.set_from_file fs fn idstr = .error (.unknownImageType idstr) ∧
    ∀ out, make_stream infnt fs tuples expert ≠ .ok out := by
  obtain ⟨hres, htab⟩ := resolve_of_strip_none hstrip
  have hsf : Image.set_from_file fs fn idstr =
      .error (.unknownImageType idstr) := by
    unfold Image.set_from_file
    simp only
    rw [hres, htab]
  refine ⟨hsf, ?_⟩
  intro out hok
  obtain ⟨inf, fim1, cmd, cord, fim, h1, h2, _⟩ := make_stream_ok hok
  obtain ⟨img, himg⟩ := collect_cmdline_ok_all fs tuples h2 (idstr, fn) hmem
  rw [hsf] at himg
  cases himg

/-- Witness for C9: the unknown name `nonsense`. -/
theorem C9_unknown_type_witness :
    Image.set_from_file (fun _ => ([] : List Nat)) "g" "nonsense" =
      .error (.unknownImageType "nonsense") ∧
    ∀ out, make_stream [] (fun _ => ([] : List Nat)) [("nonsense", "g")]
      false ≠ .ok out :=
  C9_unknown_type (fun _ => ([] : List Nat)) [] [("nonsense", "g")] false
    "g" "nonsense" (List.mem_cons_self _ _) rfl

/-! ## Claim C10: unknown ids — assembler `KeyError` vs dumper fallback -/

/-- C10: a fully readable input stream holding a record whose image id the
table cannot resolve makes `make_stream` fail with the reverse-lookup
`KeyError` (no output), while `dump_stream` succeeds on the same stream
and names the record `image_id_N` (plus the usual `-vV` suffix). -/
theorem C10_keyerror_vs_dump (s : List Nat) (rest_streams : List (List Nat))
    (fs : String → List Nat) (tuples : List (String × String))
    (expert : Bool) (imgs : List Image) (img : Image)
    (hread : readStream s = .ok imgs) (hmem : img ∈ imgs)
    (hrev : rev_image_table img.header.image_id = none) :
    (∃ t, rev_image_table t = none ∧
      make_stream (s :: rest_streams) fs tuples expert =
        .error (.keyErrorRev t)) ∧
    dump_stream s = .ok (imgs.map (fun im =>
      ((dump_entry im).1, (dump_entry im).2, im))) ∧
    (dump_entry img).1 = (if 2 ≤ img.header.minor then
        "image_id_" ++ Nat.repr img.header.image_id ++ "-v" ++
          Nat.repr img.header.cur_img_ver
      else "image_id_" ++ Nat.repr img.header.image_id) := by
  refine ⟨?_, ?_, ?_⟩
  · obtain ⟨t, ht, hcs⟩ := collect_stream_keyerr s [] 0 hread hmem hrev [] 0
    refine ⟨t, ht, ?_⟩
    unfold make_stream
    have hss : collect_streams (s :: rest_streams) [] 0 =
        .error (.keyErrorRev t) := by
      unfold collect_streams
      rw [hcs]
    rw [hss]
  · unfold dump_stream
    rw [hread]
  · unfold dump_entry
    rw [hrev]
    dsimp only
    split_ifs with hm
    · rfl
    · rfl

/-- A one-image stream whose record has the unknown id 0 (version 7). -/
def cex10_stream : List Nat :=
  ImageHdr.get_bits ⟨1, 2, 0, 0, 7, 0, 0, 0⟩

/-- Witness for C10 on a concrete unknown-id stream. -/
theorem C10_keyerror_vs_dump_witness :
    (∃ t, rev_image_table t = none ∧
      make_stream [cex10_stream] (fun _ => ([] : List Nat)) [] false =
        .error (.keyErrorRev t)) ∧
    dump_stream cex10_stream =
      .ok ([(⟨⟨1, 2, 0, 0, 7, 0, 0, 0⟩, []⟩ : Image)].map (fun im =>
        ((dump_entry im).1, (dump_entry im).2, im))) ∧
    (dump_entry (⟨⟨1, 2, 0, 0, 7, 0, 0, 0⟩, []⟩ : Image)).1 =
      (if 2 ≤ (⟨⟨1, 2, 0, 0, 7, 0, 0, 0⟩, []⟩ : Image).header.minor then
        "image_id_" ++
          Nat.repr (⟨⟨1, 2, 0, 0, 7, 0, 0, 0⟩, []⟩ : Image).header.image_id ++
          "-v" ++
          Nat.repr
            (⟨⟨1, 2, 0, 0, 7, 0, 0, 0⟩, []⟩ : Image).header.cur_img_ver
      else "image_id_" ++
        Nat.repr (⟨⟨1, 2, 0, 0, 7, 0, 0, 0⟩, []⟩ : Image).header.image_id) := by
  have hs1 : Image.set_from_stream cex10_stream =
      .ok (⟨⟨1, 2, 0, 0, 7, 0, 0, 0⟩, []⟩, ([] : List Nat)) := by rfl
  have hread : readStream cex10_stream =
      .ok [(⟨⟨1, 2, 0, 0, 7, 0, 0, 0⟩, []⟩ : Image)] := by
    rw [readStream_eq_ok hs1]
    rw [readStream_eq_nohdr (by rfl)]
  exact C10_keyerror_vs_dump cex10_stream [] (fun _ => ([] : List Nat)) []
    false _ _ hread (List.mem_cons_self _ _) rfl
